import Mathlib

/-!
Shallow embedding of the DRE data-reconciliation core.

The embedded code is the reconciliation engine (CSV parse/render, field
cleaning, inconsistency detection, disruption analysis, consolidation,
correction merging) and the error paths of the AI-correction service call.

Embedding conventions:
* JS values stored in rows are modeled by `Value` (string, number, null,
  undefined); JS numbers by `JSNum` (exact rationals plus NaN and the two
  infinities).  Binary floating point round-off is not modeled; all
  arithmetic the claims touch is exact in the source's value range.
* JS objects are insertion-ordered association lists (`Row`); property
  assignment replaces an existing entry in place or appends a fresh one,
  which matches JS object key ordering.
* `Number(string)` is modeled for trimmed decimal literals, the empty
  string and the Infinity literals; hex/octal/binary literals are outside
  the modeled fragment.
* `new Date(string)` is modeled for the dash-separated year-month-day
  forms the code feeds it (ISO `YYYY-MM-DD` and the `YYYY-M-D` shape its
  own `MM/DD/YYYY` rewrite produces), evaluated as UTC; `Date.now` is an
  explicit millisecond parameter `now`.
* `JSON.parse(JSON.stringify(x))` (the code's deep-copy idiom) drops
  entries whose value is undefined and turns NaN/Infinity into null,
  exactly as JSON serialization does.
-/

namespace DRE

/-- JavaScript numbers: NaN, the infinities, or a finite value (exact ℚ). -/
inductive JSNum where
  | nan : JSNum
  | posInf : JSNum
  | negInf : JSNum
  | fin : ℚ → JSNum
deriving DecidableEq, Repr

/-- A field value of a row: JS string, number, null, or undefined. -/
inductive Value where
  | str : String → Value
  | num : JSNum → Value
  | null : Value
  | undef : Value
deriving DecidableEq, Repr

/-- A row (`DataRow` in the source) is a JS object: an insertion-ordered
association list from field name to value. -/
abbrev Row := List (String × Value)

/-- Property read `row[k]`: first entry wins, absent keys read as undefined. -/
def getV : Row → String → Value
  | [], _ => .undef
  | (k', v) :: rest, k => if k' = k then v else getV rest k

/-- Property write `row[k] = v`: replace in place if present, else append
(JS object key-ordering semantics). -/
def setField : Row → String → Value → Row
  | [], k, v => [(k, v)]
  | (k', v') :: rest, k, v =>
    if k' = k then (k, v) :: rest else (k', v') :: setField rest k v

/-- `Object.keys` of a row. -/
def rowKeys (r : Row) : List String := r.map Prod.fst

/-- JS truthiness of a value. -/
def truthy : Value → Bool
  | .str s => !(s == "")
  | .num .nan => false
  | .num (.fin q) => !(q == 0)
  | .num _ => true
  | .null => false
  | .undef => false

/-- Whitespace for `String.prototype.trim` (the ASCII subset the data uses). -/
def isWS (c : Char) : Bool := c == ' ' || c == '\t' || c == '\n' || c == '\r'

/-- `trim` on a character list: drop whitespace from both ends. -/
def trimL (l : List Char) : List Char :=
  ((l.dropWhile isWS).reverse.dropWhile isWS).reverse

/-- `String.prototype.trim`. -/
def jsTrim (s : String) : String := String.mk (trimL s.data)

/-- ASCII lower-to-upper character table. -/
def upperMap : List (Char × Char) :=
  [('a', 'A'), ('b', 'B'), ('c', 'C'), ('d', 'D'), ('e', 'E'), ('f', 'F'),
   ('g', 'G'), ('h', 'H'), ('i', 'I'), ('j', 'J'), ('k', 'K'), ('l', 'L'),
   ('m', 'M'), ('n', 'N'), ('o', 'O'), ('p', 'P'), ('q', 'Q'), ('r', 'R'),
   ('s', 'S'), ('t', 'T'), ('u', 'U'), ('v', 'V'), ('w', 'W'), ('x', 'X'),
   ('y', 'Y'), ('z', 'Z')]

/-- ASCII upper-to-lower character table. -/
def lowerMap : List (Char × Char) := upperMap.map (fun p => (p.2, p.1))

/-- Character-wise `toUpperCase` (ASCII fragment). -/
def toUpperChar (c : Char) : Char :=
  ((upperMap.find? (fun p => p.1 == c)).map Prod.snd).getD c

/-- Character-wise `toLowerCase` (ASCII fragment). -/
def toLowerChar (c : Char) : Char :=
  ((lowerMap.find? (fun p => p.1 == c)).map Prod.snd).getD c

/-- `String.prototype.toUpperCase` (ASCII fragment). -/
def jsToUpper (s : String) : String := String.mk (s.data.map toUpperChar)

/-- `String.prototype.toLowerCase` (ASCII fragment). -/
def jsToLower (s : String) : String := String.mk (s.data.map toLowerChar)

/-- `String.prototype.includes`. -/
def containsStr (needle hay : String) : Bool :=
  hay.data.tails.any (fun t => needle.data.isPrefixOf t)

/-- Split a character list at every occurrence of `sep` (JS `split(sep)`):
never returns an empty list of parts. -/
def splitCharL (sep : Char) : List Char → List (List Char)
  | [] => [[]]
  | c :: rest =>
    if c = sep then [] :: splitCharL sep rest
    else
      match splitCharL sep rest with
      | [] => [[c]]
      | l :: ls => (c :: l) :: ls

/-- `Array.prototype.join` with a one-character separator. -/
def joinCharL (sep : Char) : List (List Char) → List Char
  | [] => []
  | [l] => l
  | l :: ls => l ++ sep :: joinCharL sep ls

/-- Split at `\r?\n` (JS `split(/\r?\n/)`); a lone `\r` stays in its line. -/
def splitLinesL : List Char → List (List Char)
  | [] => [[]]
  | '\n' :: rest => [] :: splitLinesL rest
  | '\r' :: '\n' :: rest => [] :: splitLinesL rest
  | c :: rest =>
    match splitLinesL rest with
    | [] => [[c]]
    | l :: ls => (c :: l) :: ls

/-- Digit list to its natural value. -/
def digitsToNat (l : List Char) : Nat :=
  l.foldl (fun a c => a * 10 + (c.toNat - 48)) 0

/-- A non-empty all-digit list, as a natural number. -/
def parseNatDigits (l : List Char) : Option Nat :=
  if l ≠ [] ∧ l.all Char.isDigit then some (digitsToNat l) else none

/-- Decimal mantissa (`123`, `1.5`, `.5`, `1.`) as an exact rational. -/
def parseMantissa (l : List Char) : Option ℚ :=
  match splitCharL '.' l with
  | [ip] => (parseNatDigits ip).map (fun n => (n : ℚ))
  | [ip, fp] =>
    if ip = [] ∧ fp = [] then none
    else if ip.all Char.isDigit ∧ fp.all Char.isDigit then
      some ((digitsToNat ip : ℚ) + (digitsToNat fp : ℚ) / ((10 : ℚ) ^ fp.length))
    else none
  | _ => none

/-- Apply an optional leading sign, then a sub-parser. -/
def parseSigned (f : List Char → Option ℚ) (l : List Char) : Option ℚ :=
  match l with
  | '+' :: rest => f rest
  | '-' :: rest => (f rest).map Neg.neg
  | _ => f l

/-- Split a numeric literal at its first exponent marker. -/
def splitOnExp : List Char → List Char × Option (List Char)
  | [] => ([], none)
  | c :: rest =>
    if c = 'e' ∨ c = 'E' then ([], some rest)
    else
      let (m, e) := splitOnExp rest
      (c :: m, e)

/-- A signed all-digit exponent. -/
def parseExpInt (l : List Char) : Option Int :=
  match l with
  | '+' :: rest => (parseNatDigits rest).map (fun n => (n : Int))
  | '-' :: rest => (parseNatDigits rest).map (fun n => -(n : Int))
  | _ => (parseNatDigits l).map (fun n => (n : Int))

/-- Integer power of ten over ℚ. -/
def pow10Z (k : Int) : ℚ :=
  if 0 ≤ k then ((10 : ℚ) ^ k.toNat) else 1 / ((10 : ℚ) ^ (-k).toNat)

/-- `Number(string)`: trim, empty string is 0, Infinity literals, else a
decimal literal with optional exponent; anything else is NaN (hex/octal
literals are outside the modeled fragment). -/
def jsStringToNumber (s : String) : JSNum :=
  let t := trimL s.data
  if t = [] then .fin 0
  else if t = "Infinity".data ∨ t = "+Infinity".data then .posInf
  else if t = "-Infinity".data then .negInf
  else
    let me := splitOnExp t
    match parseSigned parseMantissa me.1, me.2 with
    | some q, none => .fin q
    | some q, some ex =>
      match parseExpInt ex with
      | some k => .fin (q * pow10Z k)
      | none => .nan
    | none, _ => .nan

/-- `Number(value)` on the value shapes rows hold. -/
def jsToNumber : Value → JSNum
  | .num n => n
  | .null => .fin 0
  | .undef => .nan
  | .str s => jsStringToNumber s

/-- JS subtraction on numbers. -/
def jsSub : JSNum → JSNum → JSNum
  | .nan, _ => .nan
  | _, .nan => .nan
  | .posInf, .posInf => .nan
  | .posInf, .negInf => .posInf
  | .posInf, .fin _ => .posInf
  | .negInf, .negInf => .nan
  | .negInf, .posInf => .negInf
  | .negInf, .fin _ => .negInf
  | .fin _, .posInf => .negInf
  | .fin _, .negInf => .posInf
  | .fin a, .fin b => .fin (a - b)

/-- Digits of a natural number. -/
def natDigitsStr (n : Nat) : String := String.mk (Nat.toDigits 10 n)

/-- Left-pad a digit string with zeros to width `k`. -/
def padZeros (k : Nat) (s : String) : String :=
  String.mk (List.replicate (k - s.data.length) '0' ++ s.data)

/-- `String(number)` for the values the data produces: integers print as
digit runs, terminating decimals with a point (exponential float notation
for huge magnitudes is outside the modeled fragment). -/
def jsNumToString : JSNum → String
  | .nan => "NaN"
  | .posInf => "Infinity"
  | .negInf => "-Infinity"
  | .fin q =>
    let sign := if q < 0 then "-" else ""
    let a : Nat := q.num.natAbs
    let b : Nat := q.den
    if b = 1 then sign ++ natDigitsStr a
    else
      match (List.range 1101).find? (fun k => b ∣ 10 ^ k) with
      | some k =>
        let scaled := a * 10 ^ k / b
        sign ++ natDigitsStr (scaled / 10 ^ k) ++ "." ++
          padZeros k (natDigitsStr (scaled % 10 ^ k))
      | none => sign ++ natDigitsStr a ++ "/" ++ natDigitsStr b

/-- `JSON.parse(JSON.stringify(row))`: undefined-valued entries vanish,
NaN and the infinities serialize to null, all else survives unchanged. -/
def jsonCopyRow (r : Row) : Row :=
  r.filterMap (fun p =>
    match p.2 with
    | .undef => none
    | .num .nan => some (p.1, .null)
    | .num .posInf => some (p.1, .null)
    | .num .negInf => some (p.1, .null)
    | v => some (p.1, v))

/-- Deep copy of a list of rows. -/
def jsonCopyRows (l : List Row) : List Row := l.map jsonCopyRow

/-- Leap year (proleptic Gregorian, as JS Date uses). -/
def isLeapYear (y : Nat) : Bool := (y % 4 == 0 && y % 100 != 0) || y % 400 == 0

/-- Days in a month. -/
def daysInMonth (y m : Nat) : Nat :=
  if m = 2 then (if isLeapYear y then 29 else 28)
  else if m = 4 ∨ m = 6 ∨ m = 9 ∨ m = 11 then 30
  else 31

/-- Days from the Unix epoch to civil date `y-m-d` (Gregorian). -/
def daysFromCivil (y m d : Nat) : Int :=
  let yi : Int := (y : Int)
  let y2 : Int := if m ≤ 2 then yi - 1 else yi
  let era : Int := (if 0 ≤ y2 then y2 else y2 - 399).ediv 400
  let yoe : Int := y2 - era * 400
  let mi : Int := (m : Int)
  let mp : Int := if 2 < m then mi - 3 else mi + 9
  let doy : Int := (153 * mp + 2).ediv 5 + (d : Int) - 1
  let doe : Int := yoe * 365 + yoe.ediv 4 - yoe.ediv 100 + doy
  era * 146097 + doe - 719468

/-- `new Date(string).getTime()` for dash-separated year-month-day strings
(UTC midnight, milliseconds); `none` is an Invalid Date. -/
def parseJsDateMs (s : String) : Option Int :=
  match splitCharL '-' s.data with
  | [ys, ms, ds] =>
    match parseNatDigits ys, parseNatDigits ms, parseNatDigits ds with
    | some y, some m, some d =>
      if 1 ≤ y ∧ 1 ≤ m ∧ m ≤ 12 ∧ 1 ≤ d ∧ d ≤ daysInMonth y m then
        some (daysFromCivil y m d * 86400000)
      else none
    | _, _, _ => none
  | _ => none

/-- `new Date(value).getTime()` on stored values; `none` is NaN time. -/
def jsDateValue : Value → Option Int
  | .str s => parseJsDateMs s
  | .num (.fin q) => some (if 0 ≤ q then ⌊q⌋ else ⌈q⌉)
  | .num _ => none
  | .null => some 0
  | .undef => none

/-- Greedy digit prefix. -/
def takeDigits (l : List Char) : List Char × List Char :=
  (l.takeWhile Char.isDigit, l.dropWhile Char.isDigit)

/-- Match `(\d+)\/(\d+)\/(\d+)` at the head of the list. -/
def matchMDY (l : List Char) : Option (List Char × List Char × List Char × List Char) :=
  let p1 := takeDigits l
  if p1.1 = [] then none
  else
    match p1.2 with
    | '/' :: r2 =>
      let p2 := takeDigits r2
      if p2.1 = [] then none
      else
        match p2.2 with
        | '/' :: r4 =>
          let p3 := takeDigits r4
          if p3.1 = [] then none else some (p1.1, p2.1, p3.1, p3.2)
        | _ => none
    | _ => none

/-- `s.replace(/(\d+)\/(\d+)\/(\d+)/, '$3-$1-$2')`: rewrite the leftmost
slash-separated digit triple, leave everything else alone. -/
def mmddyyyyFixL : List Char → List Char
  | [] => []
  | c :: rest =>
    match matchMDY (c :: rest) with
    | some (m, d, y, tail) => y ++ '-' :: (m ++ '-' :: (d ++ tail))
    | none => c :: mmddyyyyFixL rest

/-- String-level `MM/DD/YYYY` to `YYYY-MM-DD` rewrite. -/
def mmddyyyyFix (s : String) : String := String.mk (mmddyyyyFixL s.data)

/-! ## CSV parse and render (`parseCSV`, `generateCsvContent`) -/

/-- One parsed cell: trim, empty becomes null, strip one surrounding pair
of double quotes. -/
def stripCell (l : List Char) : Value :=
  let t := trimL l
  if t = [] then .null
  else if t.head? = some '"' ∧ t.getLast? = some '"' then
    .str (String.mk ((t.drop 1).dropLast))
  else .str (String.mk t)

/-- `values[index]?.trim() || null`, then quote stripping. -/
def cellAt (values : List (List Char)) (i : Nat) : Value :=
  match values.get? i with
  | none => .null
  | some l => stripCell l

/-- `parseCSV` over characters: trim the text, split lines, header row
then positional pairing of each data line with the header names. -/
def parseCSVL (text : List Char) : List Row :=
  let lines := splitLinesL (trimL text)
  if lines.length < 2 then []
  else
    let header := (splitCharL ',' lines.headI).map (fun h => String.mk (trimL h))
    lines.tail.map (fun line =>
      let values := splitCharL ',' line
      header.enum.foldl (fun obj p => setField obj p.2 (cellAt values p.1)) [])

/-- `parseCSV` from the source. -/
def parseCSV (text : String) : List Row := parseCSVL text.data

/-- `replace(/"/g, '""')`. -/
def escQuotes : List Char → List Char
  | [] => []
  | c :: rest =>
    if c = '"' then '"' :: '"' :: escQuotes rest else c :: escQuotes rest

/-- `String(value)` as the renderer calls it. -/
def jsStringOf : Value → String
  | .str s => s
  | .num n => jsNumToString n
  | .null => "null"
  | .undef => "undefined"

/-- One rendered cell: null/undefined print empty, a value containing the
delimiter is quote-wrapped with doubled inner quotes. -/
def renderCellL (v : Value) : List Char :=
  match v with
  | .null => []
  | .undef => []
  | v =>
    let sv := (jsStringOf v).data
    if sv.contains ',' then '"' :: (escQuotes sv ++ ['"']) else sv

/-- `generateCsvContent` over characters: header line from the first row's
keys, then one line per row in header order. -/
def generateCsvContentL (data : List Row) : List Char :=
  match data with
  | [] => []
  | r0 :: _ =>
    let headers := rowKeys r0
    let headerRow := joinCharL ',' (headers.map String.data)
    let rows := data.map (fun row =>
      joinCharL ',' (headers.map (fun h => renderCellL (getV row h))))
    joinCharL '\n' (headerRow :: rows)

/-- `generateCsvContent` from the source. -/
def generateCsvContent (data : List Row) : String :=
  String.mk (generateCsvContentL data)

/-- A field name that the parse/render round trip preserves: non-empty,
trim-stable, and free of the delimiter and line-break characters. -/
def goodHeaderP (l : List Char) : Prop :=
  l ≠ [] ∧ trimL l = l ∧ ',' ∉ l ∧ '\n' ∉ l ∧ '\r' ∉ l

/-- A field value string that the round trip preserves: a good header
shape that is additionally not wrapped in double quotes. -/
def goodCellP (l : List Char) : Prop :=
  goodHeaderP l ∧ ¬(l.head? = some '"' ∧ l.getLast? = some '"')

instance (l : List Char) : Decidable (goodHeaderP l) := by
  unfold goodHeaderP
  infer_instance

instance (l : List Char) : Decidable (goodCellP l) := by
  unfold goodCellP
  infer_instance

/-! ## Field cleaning (`cleanData`) -/

/-- The fixed identifier/text columns of `cleanData`. -/
def textColumns : List String := ["item_id", "item_name", "order_id", "return_id"]

/-- Quantity columns: keys of the (deep-copied) first row whose lowercase
name contains "qty". -/
def qtyColumnsOf (data : List Row) : List String :=
  (rowKeys ((data.map jsonCopyRow).headI)).filter
    (fun col => containsStr "qty" (jsToLower col))

/-- Quantity coercion of one column: empty string, null, undefined and
the literal "NA" become null; otherwise `Number(...)`, NaN becoming null. -/
def coerceQty (row : Row) (col : String) : Row :=
  if getV row col = .str "" ∨ getV row col = .null ∨ getV row col = .undef ∨
      getV row col = .str "NA" then
    setField row col .null
  else if jsToNumber (getV row col) = .nan then setField row col .null
  else setField row col (.num (jsToNumber (getV row col)))

/-- Text normalization of one column: a truthy string is trimmed and
upper-cased, everything else is untouched. -/
def upperText (row : Row) (col : String) : Row :=
  match getV row col with
  | .str s => if s = "" then row else setField row col (.str (jsToUpper (jsTrim s)))
  | _ => row

/-- The per-row body of `cleanData`'s forEach. -/
def cleanRowOf (data : List Row) (row : Row) : Row :=
  textColumns.foldl upperText ((qtyColumnsOf data).foldl coerceQty row)

/-- `cleanData` from the source: deep-copy, then coerce quantity columns
and normalize text columns of every row (`sourceName` is unused by the
body, as in the source). -/
def cleanData (data : List Row) (sourceName : String) : List Row :=
  if data.isEmpty then [] else (data.map jsonCopyRow).map (cleanRowOf data)

/-- A column is quantity-stable when it is present and holds null or a
non-NaN number — exactly the states `coerceQty` leaves behind and maps to
themselves. -/
def qtyStable (r : Row) (c : String) : Prop :=
  c ∈ rowKeys r ∧ (getV r c = .null ∨ ∃ n, getV r c = .num n ∧ n ≠ .nan)

/-- A column is text-stable when any truthy string it holds is a fixed
point of trim-then-uppercase. -/
def textStable (r : Row) (c : String) : Prop :=
  ∀ s, getV r c = .str s → s ≠ "" → jsToUpper (jsTrim s) = s

/-- Values that survive the JSON copy unchanged. -/
def jsonStableValue (v : Value) : Prop :=
  v ≠ .undef ∧ v ≠ .num .nan ∧ v ≠ .num .posInf ∧ v ≠ .num .negInf

/-! ## Inconsistency detection (`identifyInconsistencies`) -/

/-- `Map.prototype.set` keyed by a JS value: overwrite in place, else append. -/
def joinMapSet (m : List (Value × Row)) (k : Value) (v : Row) : List (Value × Row) :=
  match m with
  | [] => [(k, v)]
  | (k', v') :: rest =>
    if k' = k then (k, v) :: rest else (k', v') :: joinMapSet rest k v

/-- `Map.prototype.get`. -/
def joinMapGet (m : List (Value × Row)) (k : Value) : Option Row :=
  match m with
  | [] => none
  | (k', v') :: rest => if k' = k then some v' else joinMapGet rest k

/-- The detector's outer join on `key` comparing `valCol`, suffixing the
two sides' value columns. -/
def outerJoin (left right : List Row) (key valCol suf1 suf2 : String) : List Row :=
  let m1 := left.foldl (fun m row =>
    if truthy (getV row key) then
      joinMapSet m (getV row key)
        [(key, getV row key), (valCol ++ suf1, getV row valCol)]
    else m) []
  let m2 := right.foldl (fun m row =>
    if truthy (getV row key) then
      let existing := (joinMapGet m (getV row key)).getD [(key, getV row key)]
      joinMapSet m (getV row key)
        (setField existing (valCol ++ suf2) (getV row valCol))
    else m) m1
  m2.map Prod.snd

/-- A joined row is a discrepancy when both sides are non-null and their
numeric difference is a non-NaN, non-zero number. -/
def discrepancyFilter (valCol suf1 suf2 : String) (row : Row) : Bool :=
  let val1 := getV row (valCol ++ suf1)
  let val2 := getV row (valCol ++ suf2)
  if val1 = .null ∨ val2 = .null then false
  else
    let diff := jsSub (jsToNumber val1) (jsToNumber val2)
    !(diff == .nan) && !(diff == .fin 0)

/-- `Inconsistency` from the source. -/
structure Inconsistency where
  type : String
  details : List Row
deriving DecidableEq, Inhabited, Repr

/-- `identifyInconsistencies` from the source: inventory join on `item_id`
over `inventory_qty`, order join on `order_id` over `order_qty`; each
class is pushed only when it has at least one discrepancy. -/
def identifyInconsistencies (legacy spreadsheet : List Row) : List Inconsistency :=
  let qtyDiscrepancies :=
    (outerJoin legacy spreadsheet "item_id" "inventory_qty" "_legacy" "_spreadsheet").filter
      (discrepancyFilter "inventory_qty" "_legacy" "_spreadsheet")
  let orderDiscrepancies :=
    (outerJoin legacy spreadsheet "order_id" "order_qty" "_legacy" "_spreadsheet").filter
      (discrepancyFilter "order_qty" "_legacy" "_spreadsheet")
  (if qtyDiscrepancies.length > 0 then
    [Inconsistency.mk "Inventory Quantity Discrepancy" qtyDiscrepancies] else []) ++
  (if orderDiscrepancies.length > 0 then
    [Inconsistency.mk "Order Quantity Discrepancy" orderDiscrepancies] else [])

/-! ## Disruption analysis (`calculateDisruption`) -/

/-- A row misses a required field when it is null, undefined or empty. -/
def requiredMissing (fields : List String) (r : Row) : Bool :=
  fields.any (fun f => getV r f = .null ∨ getV r f = .undef ∨ getV r f = .str "")

/-- `count/total/percentage` triple from the source. -/
structure MissingStats where
  count : Nat
  total : Nat
  percentage : ℚ
deriving DecidableEq, Repr

/-- `DisruptionAnalysis` from the source. -/
structure DisruptionAnalysis where
  missingInventoryData : MissingStats
  missingOrderData : MissingStats
  inTransitOrders : List Row
deriving DecidableEq, Repr

/-- `parseFloat(x.toFixed(1))` on a percentage: round half away from zero
to one decimal (the source's values are non-negative). -/
def round1 (q : ℚ) : ℚ := ((⌊q * 10 + 1 / 2⌋ : ℤ) : ℚ) / 10

/-- `total > 0 ? parseFloat(((missing/total)*100).toFixed(1)) : 0`. -/
def pctOf (missing total : Nat) : ℚ :=
  if 0 < total then round1 (((missing : ℚ) / (total : ℚ)) * 100) else 0

/-- The in-transit filter: a truthy `shipment_date` string whose (slash
rewritten) parse is strictly after `now` minus 14 days; a non-string
truthy value throws inside the try and so reads false. -/
def inTransitPred (now : Int) (r : Row) : Bool :=
  let v := getV r "shipment_date"
  if !(truthy v) then false
  else
    match v with
    | .str s =>
      match parseJsDateMs (mmddyyyyFix s) with
      | some t => decide (now - 14 * 86400000 < t)
      | none => false
    | _ => false

/-- `calculateDisruption` from the source, with evaluation time `now`
(milliseconds) made explicit. -/
def calculateDisruption (now : Int) (legacy spreadsheet supplier : List Row) :
    DisruptionAnalysis :=
  let invRecords := (legacy ++ spreadsheet).filter (fun r => truthy (getV r "item_id"))
  let missingInv :=
    (invRecords.filter (requiredMissing ["item_id", "inventory_qty", "last_updated"])).length
  let orderRecords := (legacy ++ spreadsheet).filter (fun r => truthy (getV r "order_id"))
  let missingOrders :=
    (orderRecords.filter (requiredMissing ["order_id", "order_qty", "last_updated"])).length
  { missingInventoryData :=
      MissingStats.mk missingInv invRecords.length (pctOf missingInv invRecords.length),
    missingOrderData :=
      MissingStats.mk missingOrders orderRecords.length (pctOf missingOrders orderRecords.length),
    inTransitOrders := supplier.filter (inTransitPred now) }

/-! ## Consolidation (`consolidateData`) -/

/-- Inventory projection of one source row. -/
def invProj (src qtyField dateField : String) (r : Row) : Row :=
  [("item_id", getV r "item_id"), ("item_name", getV r "item_name"),
   ("inventory_qty", getV r qtyField), ("last_updated", getV r dateField),
   ("_source", .str src)]

/-- Order projection of one source row. -/
def orderProj (src : String) (r : Row) : Row :=
  [("order_id", getV r "order_id"), ("order_qty", getV r "order_qty"),
   ("last_updated", getV r "last_updated"), ("_source", .str src)]

/-- Keep rows with a truthy key and a truthy `last_updated`. -/
def hasKeyAndDate (key : String) (r : Row) : Bool :=
  truthy (getV r key) && truthy (getV r "last_updated")

/-- The sort comparator `(a, b) => dateOf(b) - dateOf(a)` as a stable
"may come first" relation: an Invalid-Date comparison reads as 0. -/
def recencyLe (a b : Row) : Bool :=
  match jsDateValue (getV a "last_updated"), jsDateValue (getV b "last_updated") with
  | some ta, some tb => decide (tb ≤ ta)
  | _, _ => true

/-- Stable insertion of one row under a comparator. -/
def insertByLe (le : Row → Row → Bool) (a : Row) : List Row → List Row
  | [] => [a]
  | b :: l => if le a b then a :: b :: l else b :: insertByLe le a l

/-- Stable sort under a comparator (models ES2019+ stable `Array.sort`). -/
def sortByLe (le : Row → Row → Bool) : List Row → List Row
  | [] => []
  | b :: l => insertByLe le b (sortByLe le l)

/-- First-occurrence-wins dedup keyed by `getV · key` (the source's
`Map`-based uniquing, values in insertion order). -/
def dedupByKey (key : String) (rows : List Row) : List Row :=
  rows.foldl (fun acc row =>
    if acc.any (fun r => getV r key == getV row key) then acc else acc ++ [row]) []

/-- The three consolidated lists. -/
structure Consolidated where
  inventory : List Row
  orders : List Row
  returns : List Row
deriving DecidableEq, Repr

/-- `consolidateData` from the source: project, filter on key and date,
sort by recency descending, keep the first row per key; returns are a
tagged pass-through. -/
def consolidateData (legacy spreadsheet supplier reverseLogistics : List Row) :
    Consolidated :=
  let combinedInv :=
    (legacy.map (invProj "Legacy" "inventory_qty" "last_updated") ++
     spreadsheet.map (invProj "Spreadsheet" "inventory_qty" "last_updated") ++
     supplier.map (invProj "Supplier" "shipment_qty" "shipment_date")).filter
      (hasKeyAndDate "item_id")
  let combinedOrders :=
    (legacy.map (orderProj "Legacy") ++ spreadsheet.map (orderProj "Spreadsheet")).filter
      (hasKeyAndDate "order_id")
  { inventory := dedupByKey "item_id" (sortByLe recencyLe combinedInv),
    orders := dedupByKey "order_id" (sortByLe recencyLe combinedOrders),
    returns := reverseLogistics.map (fun r => setField r "_source" (.str "ReverseLogistics")) }

/-! ## Correction merging (`mergeAiFixesIntoSources`) -/

/-- `SourceData` from the service module. -/
structure SourceData where
  legacy : List Row
  spreadsheet : List Row
  supplier : List Row
  reverseLogistics : List Row
  historicalBackup : Option (List Row)
deriving DecidableEq, Repr

/-- The corrected consolidated view the merger consumes (a `Partial`, so
each list may be absent). -/
structure AiFixedData where
  consolidatedInventory : Option (List Row)
  consolidatedOrders : Option (List Row)
deriving DecidableEq, Repr

/-- The inventory field mapping, in `for...in` order. -/
def invMapping : List (String × String) :=
  [("item_name", "item_name"), ("inventory_qty", "inventory_qty"),
   ("last_updated", "last_updated")]

/-- The order field mapping, in `for...in` order. -/
def orderMapping : List (String × String) :=
  [("order_qty", "order_qty"), ("last_updated", "last_updated")]

/-- `new Map(list.map(item => [item[idField], item])).get(k)`: the last
entry with a given key wins. -/
def mapGetLast (consolidated : List Row) (idField : String) (k : Value) : Option Row :=
  consolidated.reverse.find? (fun item => getV item idField == k)

/-- Overwrite the mapped fields of `row` from a matched corrected row,
skipping source fields that are undefined. -/
def applyMappings (corrected : Row) (mappings : List (String × String)) (row : Row) : Row :=
  mappings.foldl (fun row kv =>
    if getV corrected kv.2 = .undef then row
    else setField row kv.1 (getV corrected kv.2)) row

/-- The body of `updateSource` for one row. -/
def updateRowWith (consolidated : List Row) (idField : String)
    (mappings : List (String × String)) (row : Row) : Row :=
  match mapGetLast consolidated idField (getV row idField) with
  | none => row
  | some corrected => applyMappings corrected mappings row

/-- `updateSource` over a whole source list; an absent consolidated list
leaves the source untouched. -/
def updateSourceList (rows : List Row) (consolidated : Option (List Row))
    (idField : String) (mappings : List (String × String)) : List Row :=
  match consolidated with
  | none => rows
  | some c => rows.map (updateRowWith c idField mappings)

/-- One optional update pass on one row. -/
def updateRowOpt (consolidated : Option (List Row)) (idField : String)
    (mappings : List (String × String)) (row : Row) : Row :=
  match consolidated with
  | none => row
  | some c => updateRowWith c idField mappings row

/-- The full per-row effect of both update passes. -/
def mergeRowFull (a : AiFixedData) (r : Row) : Row :=
  updateRowOpt a.consolidatedOrders "order_id" orderMapping
    (updateRowOpt a.consolidatedInventory "item_id" invMapping r)

/-- `mergeAiFixesIntoSources` from the source: deep-copy the bundle, apply
the inventory pass then the order pass to legacy and spreadsheet only. -/
def mergeAiFixesIntoSources (o : SourceData) (a : AiFixedData) : SourceData :=
  { legacy :=
      updateSourceList
        (updateSourceList (jsonCopyRows o.legacy) a.consolidatedInventory "item_id" invMapping)
        a.consolidatedOrders "order_id" orderMapping,
    spreadsheet :=
      updateSourceList
        (updateSourceList (jsonCopyRows o.spreadsheet) a.consolidatedInventory "item_id" invMapping)
        a.consolidatedOrders "order_id" orderMapping,
    supplier := jsonCopyRows o.supplier,
    reverseLogistics := jsonCopyRows o.reverseLogistics,
    historicalBackup := o.historicalBackup.map jsonCopyRows }

/-! ## AI-correction error paths (`getAiFixSuggestions`) -/

/-- The inner catch's user-facing message. -/
def aiInvalidFormatMsg : String := "AI returned an invalid data format. Please try again."

/-- The outer catch's user-facing message. -/
def aiServiceFailMsg : String :=
  "The AI service failed to process the request. Please check your connection or API key."

/-- Outcome of the collaborator round trip as the function observes it:
a transport error, or a received body together with whether it parses as
the expected structured object (`JSON.parse` abstracted to that Option). -/
inductive CollabOutcome (α : Type) where
  | transportErr : CollabOutcome α
  | ok : Option α → CollabOutcome α

/-- The inner try of `getAiFixSuggestions`: an unparseable body throws the
invalid-format error. -/
def parseAiResponse {α : Type} (parsed : Option α) : Except String α :=
  match parsed with
  | some v => Except.ok v
  | none => Except.error aiInvalidFormatMsg

/-- `getAiFixSuggestions` error flow: everything thrown inside the outer
try — including the inner catch's rethrow — is caught by the outer catch,
which throws the service-failure error. -/
def getAiFixSuggestions {α : Type} (response : CollabOutcome α) : Except String α :=
  match response with
  | .transportErr => Except.error aiServiceFailMsg
  | .ok parsed =>
    match parseAiResponse parsed with
    | .ok v => Except.ok v
    | .error _ => Except.error aiServiceFailMsg

/-! ## Row operation lemmas -/

theorem getV_setField_same (r : Row) (k : String) (v : Value) :
    getV (setField r k v) k = v := by
  induction r with
  | nil => simp [setField, getV]
  | cons p rest ih =>
    by_cases h : p.1 = k
    · simp [setField, h, getV]
    · simp [setField, h, getV, ih]

theorem getV_setField_ne (r : Row) (k k' : String) (v : Value) (h : k ≠ k') :
    getV (setField r k v) k' = getV r k' := by
  induction r with
  | nil => simp [setField, getV, h]
  | cons p rest ih =>
    by_cases hp : p.1 = k
    · simp [setField, hp, getV, h]
    · simp [setField, hp, getV, ih]

theorem mem_rowKeys_setField (r : Row) (k : String) (v : Value) :
    k ∈ rowKeys (setField r k v) := by
  induction r with
  | nil => simp [setField, rowKeys]
  | cons p rest ih =>
    by_cases hp : p.1 = k
    · simp [setField, hp, rowKeys]
    · simp only [setField, hp, if_false, rowKeys, List.map_cons, List.mem_cons]
      exact Or.inr ih

theorem mem_rowKeys_setField_of_mem (r : Row) (k k' : String) (v : Value)
    (h : k' ∈ rowKeys r) : k' ∈ rowKeys (setField r k v) := by
  induction r with
  | nil => simp [rowKeys] at h
  | cons p rest ih =>
    by_cases hp : p.1 = k
    · simp only [rowKeys, List.map_cons, List.mem_cons] at h
      simp only [setField, hp, if_true, rowKeys, List.map_cons, List.mem_cons]
      rcases h with h | h
      · exact Or.inl (h.trans hp)
      · exact Or.inr h
    · simp only [rowKeys, List.map_cons, List.mem_cons] at h
      simp only [setField, hp, if_false, rowKeys, List.map_cons, List.mem_cons]
      rcases h with h | h
      · exact Or.inl h
      · exact Or.inr (ih h)

theorem rowKeys_setField_of_mem (r : Row) (k : String) (v : Value)
    (h : k ∈ rowKeys r) : rowKeys (setField r k v) = rowKeys r := by
  induction r with
  | nil => simp [rowKeys] at h
  | cons p rest ih =>
    by_cases hp : p.1 = k
    · simp [setField, hp, rowKeys]
    · simp only [rowKeys, List.map_cons, List.mem_cons] at h
      rcases h with h | h
      · exact absurd h.symm hp
      · simp only [rowKeys] at ih ⊢
        simp only [setField, hp, if_false, List.map_cons]
        exact congrArg (List.cons p.1) (ih h)

theorem setField_self (r : Row) (k : String) (v : Value)
    (hmem : k ∈ rowKeys r) (hv : getV r k = v) : setField r k v = r := by
  induction r with
  | nil => simp [rowKeys] at hmem
  | cons p rest ih =>
    by_cases hp : p.1 = k
    · simp only [getV, hp, if_true] at hv
      simp only [setField, hp, if_true]
      rw [← hp, ← hv]
    · simp only [rowKeys, List.map_cons, List.mem_cons] at hmem
      rcases hmem with h | h
      · exact absurd h.symm hp
      · simp only [getV, hp, if_false] at hv
        simp [setField, hp, ih h hv]

theorem mem_setField (r : Row) (k : String) (v : Value) (p : String × Value)
    (hp : p ∈ setField r k v) : p = (k, v) ∨ p ∈ r := by
  induction r with
  | nil => simp [setField] at hp; simp [hp]
  | cons q rest ih =>
    by_cases hq : q.1 = k
    · simp only [setField, hq, if_true, List.mem_cons] at hp
      rcases hp with h | h
      · exact Or.inl h
      · exact Or.inr (List.mem_cons_of_mem _ h)
    · simp only [setField, hq, if_false, List.mem_cons] at hp
      rcases hp with h | h
      · exact Or.inr (h ▸ List.mem_cons_self q rest)
      · rcases ih h with h' | h'
        · exact Or.inl h'
        · exact Or.inr (List.mem_cons_of_mem _ h')

theorem getV_mem_rowKeys (r : Row) (k : String) (h : getV r k ≠ .undef) :
    k ∈ rowKeys r := by
  induction r with
  | nil => simp [getV] at h
  | cons p rest ih =>
    by_cases hp : p.1 = k
    · simp [rowKeys, hp]
    · simp only [getV, hp, if_false] at h
      simp only [rowKeys, List.map_cons, List.mem_cons]
      exact Or.inr (ih h)

/-! ## String normalization lemmas -/

theorem upperMap_snd_not_fst :
    ∀ p ∈ upperMap, ∀ q ∈ upperMap, (q.1 == p.2) = false := by decide

theorem upperMap_not_ws :
    ∀ p ∈ upperMap, isWS p.1 = false ∧ isWS p.2 = false := by decide

theorem toUpperChar_idem (c : Char) : toUpperChar (toUpperChar c) = toUpperChar c := by
  unfold toUpperChar
  cases hf : upperMap.find? (fun p => p.1 == c) with
  | none => simp [hf]
  | some p =>
    simp only [hf, Option.map_some', Option.getD_some]
    have hp : p ∈ upperMap := List.mem_of_find?_eq_some hf
    have hnone : upperMap.find? (fun q => q.1 == p.2) = none :=
      List.find?_eq_none.mpr (fun q hq => by
        simp [upperMap_snd_not_fst p hp q hq])
    simp [hnone]

theorem isWS_toUpperChar (c : Char) : isWS (toUpperChar c) = isWS c := by
  unfold toUpperChar
  cases hf : upperMap.find? (fun p => p.1 == c) with
  | none => simp [hf]
  | some p =>
    simp only [hf, Option.map_some', Option.getD_some]
    have hp : p ∈ upperMap := List.mem_of_find?_eq_some hf
    have hc : p.1 = c := by
      have := List.find?_some hf
      simpa using this
    rw [← hc, (upperMap_not_ws p hp).1, (upperMap_not_ws p hp).2]

theorem dropWhile_eq_self_of_head (p : Char → Bool) (l : List Char)
    (h : ∀ c, l.head? = some c → p c = false) : l.dropWhile p = l := by
  cases l with
  | nil => rfl
  | cons a t => simp [List.dropWhile_cons, h a rfl]

theorem dropWhile_head?_false (p : Char → Bool) (l : List Char) (c : Char)
    (h : (l.dropWhile p).head? = some c) : p c = false := by
  induction l with
  | nil => simp [List.dropWhile] at h
  | cons a t ih =>
    by_cases hp : p a
    · rw [List.dropWhile_cons, if_pos hp] at h
      exact ih h
    · rw [List.dropWhile_cons, if_neg hp] at h
      simp only [List.head?_cons, Option.some.injEq] at h
      subst h
      exact Bool.not_eq_true _ ▸ (by simpa using hp)

theorem dropWhile_getLast? (p : Char → Bool) (l : List Char)
    (h : l.dropWhile p ≠ []) : (l.dropWhile p).getLast? = l.getLast? := by
  induction l with
  | nil => rfl
  | cons a t ih =>
    by_cases hp : p a
    · rw [List.dropWhile_cons, if_pos hp] at h ⊢
      rw [ih h]
      have ht : t ≠ [] := by
        intro he
        rw [he] at h
        simp [List.dropWhile] at h
      cases t with
      | nil => exact absurd rfl ht
      | cons b u => simp [List.getLast?_cons_cons]
    · rw [List.dropWhile_cons, if_neg hp]

theorem trimL_head?_false (l : List Char) (c : Char)
    (h : (trimL l).head? = some c) : isWS c = false := by
  unfold trimL at h
  rw [List.head?_reverse] at h
  by_cases hd : (((l.dropWhile isWS).reverse).dropWhile isWS) = []
  · rw [hd] at h
    simp at h
  · rw [dropWhile_getLast? _ _ hd, List.getLast?_reverse] at h
    exact dropWhile_head?_false isWS _ c h

theorem trimL_getLast?_false (l : List Char) (c : Char)
    (h : (trimL l).getLast? = some c) : isWS c = false := by
  unfold trimL at h
  rw [List.getLast?_reverse] at h
  exact dropWhile_head?_false isWS _ c h

theorem trimL_eq_self (l : List Char)
    (h1 : ∀ c, l.head? = some c → isWS c = false)
    (h2 : ∀ c, l.getLast? = some c → isWS c = false) : trimL l = l := by
  unfold trimL
  rw [dropWhile_eq_self_of_head isWS l h1]
  rw [dropWhile_eq_self_of_head isWS l.reverse (fun c hc => by
    rw [List.head?_reverse] at hc
    exact h2 c hc)]
  exact List.reverse_reverse l

theorem map_toUpperChar_idem (l : List Char) :
    (l.map toUpperChar).map toUpperChar = l.map toUpperChar := by
  rw [List.map_map]
  exact List.map_congr_left (fun c _ => toUpperChar_idem c)

theorem upperTrim_idem (s : String) :
    jsToUpper (jsTrim (jsToUpper (jsTrim s))) = jsToUpper (jsTrim s) := by
  unfold jsToUpper jsTrim
  have htrim : trimL ((trimL s.data).map toUpperChar) = (trimL s.data).map toUpperChar := by
    apply trimL_eq_self
    · intro c hc
      rw [List.head?_map] at hc
      cases hh : (trimL s.data).head? with
      | none => rw [hh] at hc; simp at hc
      | some c0 =>
        rw [hh] at hc
        simp only [Option.map_some', Option.some.injEq] at hc
        rw [← hc, isWS_toUpperChar]
        exact trimL_head?_false s.data c0 hh
    · intro c hc
      rw [List.getLast?_map] at hc
      cases hh : (trimL s.data).getLast? with
      | none => rw [hh] at hc; simp at hc
      | some c0 =>
        rw [hh] at hc
        simp only [Option.map_some', Option.some.injEq] at hc
        rw [← hc, isWS_toUpperChar]
        exact trimL_getLast?_false s.data c0 hh
  simp only [String.data]
  rw [htrim, map_toUpperChar_idem]

/-! ## Cleaning stability lemmas -/

theorem coerceQty_qtyStable (r : Row) (c : String) : qtyStable (coerceQty r c) c := by
  unfold coerceQty
  split_ifs with h1 h2
  · exact ⟨mem_rowKeys_setField r c _, Or.inl (getV_setField_same r c _)⟩
  · exact ⟨mem_rowKeys_setField r c _, Or.inl (getV_setField_same r c _)⟩
  · exact ⟨mem_rowKeys_setField r c _,
      Or.inr ⟨jsToNumber (getV r c), getV_setField_same r c _, h2⟩⟩

theorem coerceQty_getV_ne (r : Row) (c c' : String) (h : c ≠ c') :
    getV (coerceQty r c) c' = getV r c' := by
  unfold coerceQty
  split_ifs <;> exact getV_setField_ne r c c' _ h

theorem mem_rowKeys_coerceQty (r : Row) (c c' : String) (h : c' ∈ rowKeys r) :
    c' ∈ rowKeys (coerceQty r c) := by
  unfold coerceQty
  split_ifs <;> exact mem_rowKeys_setField_of_mem r c c' _ h

theorem coerceQty_of_qtyStable (r : Row) (c : String) (h : qtyStable r c) :
    coerceQty r c = r := by
  obtain ⟨hmem, hval⟩ := h
  unfold coerceQty
  rcases hval with hnull | ⟨n, hn, hnan⟩
  · rw [if_pos (Or.inr (Or.inl hnull))]
    exact setField_self r c _ hmem hnull
  · rw [if_neg, if_neg]
    · rw [show Value.num (jsToNumber (getV r c)) = getV r c by rw [hn]; rfl]
      exact setField_self r c _ hmem rfl
    · rw [hn]
      exact hnan
    · rw [hn]
      rintro (h | h | h | h) <;> exact Value.noConfusion h

theorem qtyStable_coerceQty (r : Row) (c c' : String) (h : qtyStable r c) :
    qtyStable (coerceQty r c') c := by
  by_cases hc : c' = c
  · subst hc
    exact coerceQty_qtyStable r c'
  · exact ⟨mem_rowKeys_coerceQty r c' c h.1,
      by rw [coerceQty_getV_ne r c' c hc]; exact h.2⟩

theorem foldQty_qtyStable_preserved (cols : List String) (r : Row) (c : String)
    (h : qtyStable r c) : qtyStable (cols.foldl coerceQty r) c := by
  induction cols generalizing r with
  | nil => exact h
  | cons c0 rest ih => exact ih (coerceQty r c0) (qtyStable_coerceQty r c c0 h)

theorem foldQty_qtyStable (cols : List String) (r : Row) :
    ∀ c ∈ cols, qtyStable (cols.foldl coerceQty r) c := by
  induction cols generalizing r with
  | nil => intro c hc; simp at hc
  | cons c0 rest ih =>
    intro c hc
    simp only [List.foldl_cons]
    rcases List.mem_cons.mp hc with h | h
    · subst h
      by_cases hr : c ∈ rest
      · exact ih (coerceQty r c) c hr
      · exact foldQty_qtyStable_preserved rest _ c (coerceQty_qtyStable r c)
    · exact ih (coerceQty r c0) c h

theorem foldQty_fixed (cols : List String) (r : Row)
    (h : ∀ c ∈ cols, qtyStable r c) : cols.foldl coerceQty r = r := by
  induction cols with
  | nil => rfl
  | cons c0 rest ih =>
    simp only [List.foldl_cons]
    rw [coerceQty_of_qtyStable r c0 (h c0 (List.mem_cons_self c0 rest))]
    exact ih (fun c hc => h c (List.mem_cons_of_mem c0 hc))

theorem foldQty_getV_of_ne (cols : List String) (r : Row) (k : String)
    (h : ∀ c ∈ cols, c ≠ k) : getV (cols.foldl coerceQty r) k = getV r k := by
  induction cols generalizing r with
  | nil => rfl
  | cons c0 rest ih =>
    simp only [List.foldl_cons]
    rw [ih (coerceQty r c0) (fun c hc => h c (List.mem_cons_of_mem c0 hc)),
      coerceQty_getV_ne r c0 k (h c0 (List.mem_cons_self c0 rest))]

theorem upperText_getV_ne (r : Row) (c c' : String) (h : c ≠ c') :
    getV (upperText r c) c' = getV r c' := by
  unfold upperText
  cases hm : getV r c with
  | str s =>
    by_cases hs : s = ""
    · simp [hs]
    · simp only [hs, if_false]
      exact getV_setField_ne r c c' _ h
  | num n => rfl
  | null => rfl
  | undef => rfl

theorem rowKeys_upperText (r : Row) (c : String) :
    rowKeys (upperText r c) = rowKeys r := by
  unfold upperText
  cases hm : getV r c with
  | str s =>
    by_cases hs : s = ""
    · simp [hs]
    · simp only [hs, if_false]
      apply rowKeys_setField_of_mem
      apply getV_mem_rowKeys
      rw [hm]
      exact fun hx => Value.noConfusion hx
  | num n => rfl
  | null => rfl
  | undef => rfl

theorem upperText_textStable (r : Row) (c : String) : textStable (upperText r c) c := by
  unfold upperText
  cases hm : getV r c with
  | str s =>
    by_cases hs : s = ""
    · simp only [hs, if_true]
      intro s' hs' hne
      rw [hm, hs] at hs'
      exact absurd (Value.str.inj hs').symm hne
    · simp only [hs, if_false]
      intro s' hs' _
      rw [getV_setField_same] at hs'
      rw [← Value.str.inj hs']
      exact upperTrim_idem s
  | num n =>
    intro s' hs' _
    rw [hm] at hs'
    exact Value.noConfusion hs'
  | null =>
    intro s' hs' _
    rw [hm] at hs'
    exact Value.noConfusion hs'
  | undef =>
    intro s' hs' _
    rw [hm] at hs'
    exact Value.noConfusion hs'

theorem upperText_of_textStable (r : Row) (c : String) (h : textStable r c) :
    upperText r c = r := by
  unfold upperText
  cases hm : getV r c with
  | str s =>
    by_cases hs : s = ""
    · simp [hs]
    · simp only [hs, if_false]
      rw [h s hm hs]
      exact setField_self r c (Value.str s)
        (getV_mem_rowKeys r c (by rw [hm]; exact fun hx => Value.noConfusion hx)) hm
  | num n => rfl
  | null => rfl
  | undef => rfl

theorem textStable_upperText (r : Row) (c c' : String) (h : textStable r c) :
    textStable (upperText r c') c := by
  by_cases hc : c' = c
  · subst hc
    exact upperText_textStable r c'
  · intro s hs hne
    rw [upperText_getV_ne r c' c hc] at hs
    exact h s hs hne

theorem qtyStable_upperText (r : Row) (c c' : String) (h : qtyStable r c) (hne : c' ≠ c) :
    qtyStable (upperText r c') c :=
  ⟨by rw [rowKeys_upperText]; exact h.1,
   by rw [upperText_getV_ne r c' c hne]; exact h.2⟩

theorem foldUpper_textStable_preserved (cols : List String) (r : Row) (c : String)
    (h : textStable r c) : textStable (cols.foldl upperText r) c := by
  induction cols generalizing r with
  | nil => exact h
  | cons c0 rest ih => exact ih (upperText r c0) (textStable_upperText r c c0 h)

theorem foldUpper_textStable (cols : List String) (r : Row) :
    ∀ c ∈ cols, textStable (cols.foldl upperText r) c := by
  induction cols generalizing r with
  | nil => intro c hc; simp at hc
  | cons c0 rest ih =>
    intro c hc
    simp only [List.foldl_cons]
    rcases List.mem_cons.mp hc with h | h
    · subst h
      by_cases hr : c ∈ rest
      · exact ih (upperText r c) c hr
      · exact foldUpper_textStable_preserved rest _ c (upperText_textStable r c)
    · exact ih (upperText r c0) c h

theorem foldUpper_fixed (cols : List String) (r : Row)
    (h : ∀ c ∈ cols, textStable r c) : cols.foldl upperText r = r := by
  induction cols with
  | nil => rfl
  | cons c0 rest ih =>
    simp only [List.foldl_cons]
    rw [upperText_of_textStable r c0 (h c0 (List.mem_cons_self c0 rest))]
    exact ih (fun c hc => h c (List.mem_cons_of_mem c0 hc))

theorem foldUpper_getV_of_ne (cols : List String) (r : Row) (k : String)
    (h : ∀ c ∈ cols, c ≠ k) : getV (cols.foldl upperText r) k = getV r k := by
  induction cols generalizing r with
  | nil => rfl
  | cons c0 rest ih =>
    simp only [List.foldl_cons]
    rw [ih (upperText r c0) (fun c hc => h c (List.mem_cons_of_mem c0 hc)),
      upperText_getV_ne r c0 k (h c0 (List.mem_cons_self c0 rest))]

theorem foldUpper_qtyStable (cols : List String) (r : Row) (c : String)
    (h : qtyStable r c) (hd : ∀ t ∈ cols, t ≠ c) :
    qtyStable (cols.foldl upperText r) c := by
  induction cols generalizing r with
  | nil => exact h
  | cons c0 rest ih =>
    simp only [List.foldl_cons]
    exact ih (upperText r c0)
      (qtyStable_upperText r c c0 h (hd c0 (List.mem_cons_self c0 rest)))
      (fun t ht => hd t (List.mem_cons_of_mem c0 ht))

theorem foldUpper_rowKeys (cols : List String) (r : Row) :
    rowKeys (cols.foldl upperText r) = rowKeys r := by
  induction cols generalizing r with
  | nil => rfl
  | cons c0 rest ih =>
    simp only [List.foldl_cons]
    rw [ih (upperText r c0), rowKeys_upperText]

theorem rowKeys_coerceQty_of_mem (r : Row) (c : String) (h : c ∈ rowKeys r) :
    rowKeys (coerceQty r c) = rowKeys r := by
  unfold coerceQty
  split_ifs <;> exact rowKeys_setField_of_mem r c _ h

theorem foldQty_rowKeys (cols : List String) (r : Row)
    (h : ∀ c ∈ cols, c ∈ rowKeys r) : rowKeys (cols.foldl coerceQty r) = rowKeys r := by
  induction cols generalizing r with
  | nil => rfl
  | cons c0 rest ih =>
    simp only [List.foldl_cons]
    have hk : rowKeys (coerceQty r c0) = rowKeys r :=
      rowKeys_coerceQty_of_mem r c0 (h c0 (List.mem_cons_self c0 rest))
    rw [ih (coerceQty r c0) (fun c hc => hk ▸ h c (List.mem_cons_of_mem c0 hc)), hk]

/-! ## Value-shape lemmas for cleaned rows -/

theorem jsonCopyRow_values (r : Row) :
    ∀ p ∈ jsonCopyRow r, p.2 ≠ Value.undef ∧ p.2 ≠ Value.num JSNum.nan := by
  intro p hp
  obtain ⟨q, _, hq⟩ := List.mem_filterMap.mp hp
  cases hv : q.2 with
  | str s => rw [hv] at hq; simp only [Option.some.injEq] at hq; rw [← hq]; simp
  | null => rw [hv] at hq; simp only [Option.some.injEq] at hq; rw [← hq]; simp
  | undef => rw [hv] at hq; simp at hq
  | num n =>
    cases n with
    | nan => rw [hv] at hq; simp only [Option.some.injEq] at hq; rw [← hq]; simp
    | posInf => rw [hv] at hq; simp only [Option.some.injEq] at hq; rw [← hq]; simp
    | negInf => rw [hv] at hq; simp only [Option.some.injEq] at hq; rw [← hq]; simp
    | fin q0 => rw [hv] at hq; simp only [Option.some.injEq] at hq; rw [← hq]; simp

theorem rowKeys_jsonCopyRow_subset (r : Row) (k : String)
    (h : k ∈ rowKeys (jsonCopyRow r)) : k ∈ rowKeys r := by
  simp only [rowKeys, List.mem_map] at h ⊢
  obtain ⟨p, hp, hk⟩ := h
  obtain ⟨q, hq, hfq⟩ := List.mem_filterMap.mp hp
  refine ⟨q, hq, ?_⟩
  rw [← hk]
  cases hv : q.2 with
  | str s => rw [hv] at hfq; simp only [Option.some.injEq] at hfq; rw [← hfq]
  | null => rw [hv] at hfq; simp only [Option.some.injEq] at hfq; rw [← hfq]
  | undef => rw [hv] at hfq; simp at hfq
  | num n =>
    cases n with
    | nan => rw [hv] at hfq; simp only [Option.some.injEq] at hfq; rw [← hfq]
    | posInf => rw [hv] at hfq; simp only [Option.some.injEq] at hfq; rw [← hfq]
    | negInf => rw [hv] at hfq; simp only [Option.some.injEq] at hfq; rw [← hfq]
    | fin q0 => rw [hv] at hfq; simp only [Option.some.injEq] at hfq; rw [← hfq]

theorem jsonCopyRow_eq_self (r : Row) (h : ∀ p ∈ r, jsonStableValue p.2) :
    jsonCopyRow r = r := by
  induction r with
  | nil => rfl
  | cons p rest ih =>
    obtain ⟨k, v⟩ := p
    obtain ⟨h1, h2, h3, h4⟩ := h (k, v) (List.mem_cons_self _ rest)
    have hrest : jsonCopyRow rest = rest :=
      ih (fun q hq => h q (List.mem_cons_of_mem _ hq))
    cases v with
    | str s => simpa [jsonCopyRow, List.filterMap_cons] using hrest
    | null => simpa [jsonCopyRow, List.filterMap_cons] using hrest
    | undef => exact absurd rfl h1
    | num n =>
      cases n with
      | nan => exact absurd rfl h2
      | posInf => exact absurd rfl h3
      | negInf => exact absurd rfl h4
      | fin q0 => simpa [jsonCopyRow, List.filterMap_cons] using hrest

/-! ## cleanData structure lemmas -/

theorem cleanData_eq_map (d : List Row) (s : String) :
    cleanData d s = d.map (fun r => cleanRowOf d (jsonCopyRow r)) := by
  cases d with
  | nil => rfl
  | cons r0 rest =>
    simp only [cleanData, List.isEmpty_cons, Bool.false_eq_true, if_false, List.map_map]
    rfl

theorem headI_map_jsonCopy (d : List Row) :
    (d.map jsonCopyRow).headI = jsonCopyRow d.headI := by
  cases d <;> rfl

theorem qtyColumnsOf_eq (d : List Row) :
    qtyColumnsOf d = (rowKeys (jsonCopyRow d.headI)).filter
      (fun col => containsStr "qty" (jsToLower col)) := by
  unfold qtyColumnsOf
  rw [headI_map_jsonCopy]

theorem qtyColumnsOf_mem_keys (d : List Row) (c : String) (h : c ∈ qtyColumnsOf d) :
    c ∈ rowKeys (jsonCopyRow d.headI) := by
  rw [qtyColumnsOf_eq] at h
  exact (List.mem_filter.mp h).1

theorem qtyColumnsOf_qty (d : List Row) (c : String) (h : c ∈ qtyColumnsOf d) :
    containsStr "qty" (jsToLower c) = true := by
  rw [qtyColumnsOf_eq] at h
  exact (List.mem_filter.mp h).2

theorem textColumns_not_qty :
    ∀ t ∈ textColumns, containsStr "qty" (jsToLower t) = false := by decide

theorem textColumns_ne_qtyColumn (d : List Row) (t c : String)
    (ht : t ∈ textColumns) (hc : c ∈ qtyColumnsOf d) : t ≠ c := by
  intro he
  have h1 := textColumns_not_qty t ht
  have h2 := qtyColumnsOf_qty d c hc
  rw [he, h2] at h1
  exact Bool.noConfusion h1

theorem cleanRowOf_qtyStable (d : List Row) (r : Row) (c : String)
    (hc : c ∈ qtyColumnsOf d) : qtyStable (cleanRowOf d r) c := by
  unfold cleanRowOf
  exact foldUpper_qtyStable textColumns _ c
    (foldQty_qtyStable (qtyColumnsOf d) r c hc)
    (fun t ht => textColumns_ne_qtyColumn d t c ht hc)

theorem cleanRowOf_textStable (d : List Row) (r : Row) (t : String)
    (ht : t ∈ textColumns) : textStable (cleanRowOf d r) t := by
  unfold cleanRowOf
  exact foldUpper_textStable textColumns _ t ht

theorem rowKeys_cleanRowOf_of_keys (d : List Row) (r : Row)
    (h : ∀ c ∈ qtyColumnsOf d, c ∈ rowKeys r) :
    rowKeys (cleanRowOf d r) = rowKeys r := by
  unfold cleanRowOf
  rw [foldUpper_rowKeys, foldQty_rowKeys (qtyColumnsOf d) r h]

/-- No cleaned row holds an undefined or NaN value: the deep copy removed
them and cleaning reintroduces neither. -/
theorem coerceQty_values (r : Row) (c : String)
    (h : ∀ p ∈ r, p.2 ≠ Value.undef ∧ p.2 ≠ Value.num JSNum.nan) :
    ∀ p ∈ coerceQty r c, p.2 ≠ Value.undef ∧ p.2 ≠ Value.num JSNum.nan := by
  intro p hp
  unfold coerceQty at hp
  split_ifs at hp with h1 h2
  · rcases mem_setField r c _ p hp with he | hm
    · rw [he]; simp
    · exact h p hm
  · rcases mem_setField r c _ p hp with he | hm
    · rw [he]; simp
    · exact h p hm
  · rcases mem_setField r c _ p hp with he | hm
    · rw [he]
      refine ⟨by simp, ?_⟩
      simp only [ne_eq, Value.num.injEq]
      exact fun hx => h2 (by rw [hx])
    · exact h p hm

theorem upperText_values (r : Row) (c : String)
    (h : ∀ p ∈ r, p.2 ≠ Value.undef ∧ p.2 ≠ Value.num JSNum.nan) :
    ∀ p ∈ upperText r c, p.2 ≠ Value.undef ∧ p.2 ≠ Value.num JSNum.nan := by
  intro p hp
  unfold upperText at hp
  split at hp
  · split at hp
    · exact h p hp
    · rcases mem_setField r c _ p hp with he | hmem
      · rw [he]; simp
      · exact h p hmem
  · exact h p hp

theorem foldQty_values (cols : List String) (r : Row)
    (h : ∀ p ∈ r, p.2 ≠ Value.undef ∧ p.2 ≠ Value.num JSNum.nan) :
    ∀ p ∈ cols.foldl coerceQty r, p.2 ≠ Value.undef ∧ p.2 ≠ Value.num JSNum.nan := by
  induction cols generalizing r with
  | nil => exact h
  | cons c0 rest ih => exact ih (coerceQty r c0) (coerceQty_values r c0 h)

theorem foldUpper_values (cols : List String) (r : Row)
    (h : ∀ p ∈ r, p.2 ≠ Value.undef ∧ p.2 ≠ Value.num JSNum.nan) :
    ∀ p ∈ cols.foldl upperText r, p.2 ≠ Value.undef ∧ p.2 ≠ Value.num JSNum.nan := by
  induction cols generalizing r with
  | nil => exact h
  | cons c0 rest ih => exact ih (upperText r c0) (upperText_values r c0 h)

theorem cleanData_values (d : List Row) (s : String) :
    ∀ r ∈ cleanData d s, ∀ p ∈ r, p.2 ≠ Value.undef ∧ p.2 ≠ Value.num JSNum.nan := by
  intro r hr
  rw [cleanData_eq_map] at hr
  obtain ⟨r0, _, rfl⟩ := List.mem_map.mp hr
  unfold cleanRowOf
  exact foldUpper_values textColumns _
    (foldQty_values (qtyColumnsOf d) _ (jsonCopyRow_values r0))

/-! ## C5: cleaned quantity fields are numbers or null -/

/-- C5 (amended): every quantity column detected from the first row holds,
in every cleaned row, either null or a non-NaN number — never a string.
The amendment drops the claim's finiteness (Infinity survives cleaning,
see the counterexample) and restricts to the columns the code actually
coerces, those named in the first row (see C10). -/
theorem cleanData_qty_num_or_null (d : List Row) (s : String) :
    ∀ r ∈ cleanData d s, ∀ c ∈ qtyColumnsOf d,
      getV r c = Value.null ∨ ∃ n, getV r c = Value.num n ∧ n ≠ JSNum.nan := by
  intro r hr c hc
  rw [cleanData_eq_map] at hr
  obtain ⟨r0, _, rfl⟩ := List.mem_map.mp hr
  exact (cleanRowOf_qtyStable d (jsonCopyRow r0) c hc).2

/-- C5 witness: the quantity field of a concrete cleaned row is a non-NaN
number or null. -/
theorem cleanData_qty_num_or_null_witness :
    getV ((cleanData [[("inventory_qty", Value.str "100")]] "Legacy Database").headI)
        "inventory_qty" = Value.null ∨
      ∃ n, getV ((cleanData [[("inventory_qty", Value.str "100")]] "Legacy Database").headI)
        "inventory_qty" = Value.num n ∧ n ≠ JSNum.nan :=
  cleanData_qty_num_or_null [[("inventory_qty", Value.str "100")]] "Legacy Database"
    ((cleanData [[("inventory_qty", Value.str "100")]] "Legacy Database").headI)
    (by with_unfolding_all decide) "inventory_qty" (by with_unfolding_all decide)

/-! ## C6: idempotence of cleaning -/

/-- C6 (amended): cleaning is idempotent on every input whose cleaned
rows contain no infinite values (an Infinity defeats idempotence because
the second clean's JSON deep copy serializes it to null — see the
counterexample). -/
theorem cleanData_idempotent (d : List Row) (s : String)
    (h : ∀ r ∈ cleanData d s, ∀ p ∈ r,
      p.2 ≠ Value.num JSNum.posInf ∧ p.2 ≠ Value.num JSNum.negInf) :
    cleanData (cleanData d s) s = cleanData d s := by
  cases d with
  | nil => rfl
  | cons r0 rest =>
    have hshape := cleanData_values (r0 :: rest) s
    have hcopy : ∀ r ∈ cleanData (r0 :: rest) s, jsonCopyRow r = r := by
      intro r hr
      exact jsonCopyRow_eq_self r (fun p hp =>
        ⟨(hshape r hr p hp).1, (hshape r hr p hp).2, (h r hr p hp).1, (h r hr p hp).2⟩)
    -- the head of the cleaned output and its key structure
    have hhead : (cleanData (r0 :: rest) s).headI =
        cleanRowOf (r0 :: rest) (jsonCopyRow r0) := by
      rw [cleanData_eq_map]
      rfl
    have hheadmem : (cleanData (r0 :: rest) s).headI ∈ cleanData (r0 :: rest) s := by
      rw [hhead, cleanData_eq_map]
      exact List.mem_map.mpr ⟨r0, List.mem_cons_self r0 rest, rfl⟩
    have hkeys : rowKeys ((cleanData (r0 :: rest) s).headI) =
        rowKeys (jsonCopyRow r0) := by
      rw [hhead]
      apply rowKeys_cleanRowOf_of_keys
      intro c hc
      have := qtyColumnsOf_mem_keys (r0 :: rest) c hc
      simpa using this
    have hqc : qtyColumnsOf (cleanData (r0 :: rest) s) = qtyColumnsOf (r0 :: rest) := by
      rw [qtyColumnsOf_eq, qtyColumnsOf_eq]
      rw [hcopy _ hheadmem, hkeys]
      simp only [List.headI]
    -- every cleaned row is a fixed point of a second clean's row body
    have hfix2 : ∀ x : Row, (∀ c ∈ qtyColumnsOf (r0 :: rest), qtyStable x c) →
        (∀ t ∈ textColumns, textStable x t) →
        cleanRowOf (cleanData (r0 :: rest) s) x = x := by
      intro x hq ht
      unfold cleanRowOf
      rw [hqc, foldQty_fixed _ _ hq]
      exact foldUpper_fixed _ _ ht
    have hfix : ∀ r ∈ cleanData (r0 :: rest) s,
        cleanRowOf (cleanData (r0 :: rest) s) (jsonCopyRow r) = r := by
      intro r hr
      rw [hcopy r hr]
      have hr' := hr
      rw [cleanData_eq_map] at hr'
      obtain ⟨rb, _, rfl⟩ := List.mem_map.mp hr'
      exact hfix2 _
        (fun c hc => cleanRowOf_qtyStable (r0 :: rest) (jsonCopyRow rb) c hc)
        (fun t ht => cleanRowOf_textStable (r0 :: rest) (jsonCopyRow rb) t ht)
    rw [cleanData_eq_map (cleanData (r0 :: rest) s) s]
    calc (cleanData (r0 :: rest) s).map
          (fun r => cleanRowOf (cleanData (r0 :: rest) s) (jsonCopyRow r)) =
        (cleanData (r0 :: rest) s).map (fun r => r) :=
          List.map_congr_left hfix
      _ = cleanData (r0 :: rest) s := List.map_id' _

/-- C6 witness: cleaning a concrete ordinary row set twice equals cleaning
it once. -/
theorem cleanData_idempotent_witness :
    cleanData (cleanData [[("item_id", Value.str " a1 "),
      ("inventory_qty", Value.str "100")]] "Legacy Database") "Legacy Database" =
    cleanData [[("item_id", Value.str " a1 "),
      ("inventory_qty", Value.str "100")]] "Legacy Database" :=
  cleanData_idempotent [[("item_id", Value.str " a1 "),
    ("inventory_qty", Value.str "100")]] "Legacy Database"
    (by with_unfolding_all decide)

/-! ## C10: quantity columns come from the first row only -/

/-- C10 (amended): a qty-named field absent from the first row is never
coerced in any row — its cleaned value is its deep-copied value (so a
string stays a string; the only change such a field can see is the JSON
copy mapping NaN/Infinity to null, see the counterexample). -/
theorem cleanData_qty_first_row_only (d : List Row) (s : String) (k : String)
    (hqty : containsStr "qty" (jsToLower k) = true)
    (habs : k ∉ rowKeys d.headI) :
    cleanData d s = d.map (fun r => cleanRowOf d (jsonCopyRow r)) ∧
    ∀ r ∈ d, getV (cleanRowOf d (jsonCopyRow r)) k = getV (jsonCopyRow r) k := by
  refine ⟨cleanData_eq_map d s, ?_⟩
  intro r _
  have hk_qc : ∀ c ∈ qtyColumnsOf d, c ≠ k := by
    intro c hc he
    exact habs (rowKeys_jsonCopyRow_subset d.headI k
      (he ▸ qtyColumnsOf_mem_keys d c hc))
  have hk_tc : ∀ t ∈ textColumns, t ≠ k := by
    intro t ht he
    have h1 := textColumns_not_qty t ht
    rw [he, hqty] at h1
    exact Bool.noConfusion h1
  unfold cleanRowOf
  rw [foldUpper_getV_of_ne textColumns _ k hk_tc,
    foldQty_getV_of_ne (qtyColumnsOf d) _ k hk_qc]

/-- C10 witness: a string in a qty-named field that the first row lacks
survives cleaning unchanged. -/
theorem cleanData_qty_first_row_only_witness :
    cleanData [[("a", Value.str "1")], [("a", Value.str "2"), ("b_qty", Value.str "7")]] "L" =
      ([[("a", Value.str "1")], [("a", Value.str "2"), ("b_qty", Value.str "7")]] : List Row).map
        (fun r => cleanRowOf
          [[("a", Value.str "1")], [("a", Value.str "2"), ("b_qty", Value.str "7")]]
          (jsonCopyRow r)) ∧
    getV (cleanRowOf
        [[("a", Value.str "1")], [("a", Value.str "2"), ("b_qty", Value.str "7")]]
        (jsonCopyRow [("a", Value.str "2"), ("b_qty", Value.str "7")])) "b_qty" =
      getV (jsonCopyRow [("a", Value.str "2"), ("b_qty", Value.str "7")]) "b_qty" :=
  ⟨(cleanData_qty_first_row_only
      [[("a", Value.str "1")], [("a", Value.str "2"), ("b_qty", Value.str "7")]] "L" "b_qty"
      (by decide) (by decide)).1,
   (cleanData_qty_first_row_only
      [[("a", Value.str "1")], [("a", Value.str "2"), ("b_qty", Value.str "7")]] "L" "b_qty"
      (by decide) (by decide)).2
     [("a", Value.str "2"), ("b_qty", Value.str "7")] (by decide)⟩

/-! ## C1: error paths of the AI-correction call -/

/-- C1: a successfully received but unparseable collaborator response does
not surface a failure distinct from a transport failure: the inner
invalid-format error is swallowed by the outer catch, so both paths throw
the identical service-failure message (the distinct message exists in the
code but can never reach the caller). -/
theorem getAiFix_collapses_failures :
    parseAiResponse (none : Option Unit) = Except.error aiInvalidFormatMsg ∧
    getAiFixSuggestions (CollabOutcome.ok (none : Option Unit)) =
      Except.error aiServiceFailMsg ∧
    getAiFixSuggestions (CollabOutcome.transportErr : CollabOutcome Unit) =
      Except.error aiServiceFailMsg ∧
    getAiFixSuggestions (CollabOutcome.ok (none : Option Unit)) =
      getAiFixSuggestions (CollabOutcome.transportErr : CollabOutcome Unit) ∧
    aiInvalidFormatMsg ≠ aiServiceFailMsg :=
  ⟨rfl, rfl, rfl, rfl, by decide⟩

/-! ## C2: the A1 discrepancy and consolidation scenario -/

/-- C2: with cleaned legacy row `A1 / 100 / 2024-01-01` and cleaned
spreadsheet row `A1 / 120 / 2024-01-02`, detection yields exactly one
Inventory Quantity Discrepancy whose single details row carries both
quantities, and consolidation yields exactly one `A1` row with quantity
120 and source Spreadsheet (recency wins). -/
theorem scenario_a1_discrepancy_and_consolidation :
    identifyInconsistencies
      [[("item_id", Value.str "A1"), ("inventory_qty", Value.num (JSNum.fin 100)),
        ("last_updated", Value.str "2024-01-01")]]
      [[("item_id", Value.str "A1"), ("inventory_qty", Value.num (JSNum.fin 120)),
        ("last_updated", Value.str "2024-01-02")]] =
      [Inconsistency.mk "Inventory Quantity Discrepancy"
        [[("item_id", Value.str "A1"),
          ("inventory_qty_legacy", Value.num (JSNum.fin 100)),
          ("inventory_qty_spreadsheet", Value.num (JSNum.fin 120))]]] ∧
    (consolidateData
      [[("item_id", Value.str "A1"), ("inventory_qty", Value.num (JSNum.fin 100)),
        ("last_updated", Value.str "2024-01-01")]]
      [[("item_id", Value.str "A1"), ("inventory_qty", Value.num (JSNum.fin 120)),
        ("last_updated", Value.str "2024-01-02")]] [] []).inventory =
      [[("item_id", Value.str "A1"), ("item_name", Value.undef),
        ("inventory_qty", Value.num (JSNum.fin 120)),
        ("last_updated", Value.str "2024-01-02"),
        ("_source", Value.str "Spreadsheet")]] := by
  constructor
  · with_unfolding_all decide
  · with_unfolding_all decide

/-! ## C3: consolidation key uniqueness -/

theorem foldDedup_pairwise (key : String) (rows : List Row) :
    ∀ acc : List Row, acc.Pairwise (fun a b => getV a key ≠ getV b key) →
      (rows.foldl (fun acc row =>
        if acc.any (fun r => getV r key == getV row key) then acc
        else acc ++ [row]) acc).Pairwise (fun a b => getV a key ≠ getV b key) := by
  induction rows with
  | nil => intro acc h; simpa using h
  | cons r rest ih =>
    intro acc h
    simp only [List.foldl_cons]
    apply ih
    cases hb : acc.any (fun x => getV x key == getV r key) with
    | true => simpa [hb] using h
    | false =>
      simp only [hb, Bool.false_eq_true, if_false]
      rw [List.pairwise_append]
      refine ⟨h, List.pairwise_singleton _ _, ?_⟩
      intro a ha b hbm
      rw [List.mem_singleton] at hbm
      subst hbm
      have := List.any_eq_false.mp hb a ha
      simpa using this

theorem dedupByKey_pairwise (key : String) (rows : List Row) :
    (dedupByKey key rows).Pairwise (fun a b => getV a key ≠ getV b key) :=
  foldDedup_pairwise key rows [] List.Pairwise.nil

/-- C3: for every input, each consolidated inventory row has a distinct
`item_id` and each consolidated order row has a distinct `order_id`. -/
theorem consolidateData_unique_keys (legacy spreadsheet supplier reverseLogistics : List Row) :
    ((consolidateData legacy spreadsheet supplier reverseLogistics).inventory).Pairwise
      (fun a b => getV a "item_id" ≠ getV b "item_id") ∧
    ((consolidateData legacy spreadsheet supplier reverseLogistics).orders).Pairwise
      (fun a b => getV a "order_id" ≠ getV b "order_id") :=
  ⟨dedupByKey_pairwise _ _, dedupByKey_pairwise _ _⟩

/-! ## C8: disruption percentage bounds -/

theorem round1_bounds (q : ℚ) (h0 : 0 ≤ q) (h100 : q ≤ 100) :
    0 ≤ round1 q ∧ round1 q ≤ 100 := by
  unfold round1
  constructor
  · have hfl : (0 : ℤ) ≤ ⌊q * 10 + 1 / 2⌋ := Int.floor_nonneg.mpr (by positivity)
    have : (0 : ℚ) ≤ ((⌊q * 10 + 1 / 2⌋ : ℤ) : ℚ) := by exact_mod_cast hfl
    positivity
  · have hlt : ⌊q * 10 + 1 / 2⌋ < 1001 := by
      rw [Int.floor_lt]
      push_cast
      linarith
    have hle : ⌊q * 10 + 1 / 2⌋ ≤ 1000 := by omega
    rw [div_le_iff (by norm_num : (0 : ℚ) < 10)]
    calc ((⌊q * 10 + 1 / 2⌋ : ℤ) : ℚ) ≤ 1000 := by exact_mod_cast hle
    _ = 100 * 10 := by norm_num

theorem pctOf_ok (m t : Nat) (h : m ≤ t) :
    0 ≤ pctOf m t ∧ pctOf m t ≤ 100 ∧ (t = 0 → pctOf m t = 0) := by
  unfold pctOf
  by_cases ht : 0 < t
  · have htq : (0 : ℚ) < (t : ℚ) := by exact_mod_cast ht
    have h1 : (m : ℚ) / (t : ℚ) ≤ 1 := by
      rw [div_le_one htq]
      exact_mod_cast h
    have hb := round1_bounds (((m : ℚ) / (t : ℚ)) * 100)
      (by positivity) (by linarith)
    simp only [ht, if_true]
    exact ⟨hb.1, hb.2, fun h0 => absurd h0 (Nat.pos_iff_ne_zero.mp ht)⟩
  · simp [ht]

/-- C8: both disruption percentages are in `[0, 100]`, each equals the
missing/total ratio scaled to 100 and rounded to one decimal (`pctOf`),
and each is 0 whenever its total is 0. -/
theorem calculateDisruption_percentage_bounds (now : Int)
    (legacy spreadsheet supplier : List Row) :
    (0 ≤ (calculateDisruption now legacy spreadsheet supplier).missingInventoryData.percentage ∧
     (calculateDisruption now legacy spreadsheet supplier).missingInventoryData.percentage ≤ 100 ∧
     (calculateDisruption now legacy spreadsheet supplier).missingInventoryData.percentage =
       pctOf (calculateDisruption now legacy spreadsheet supplier).missingInventoryData.count
         (calculateDisruption now legacy spreadsheet supplier).missingInventoryData.total ∧
     ((calculateDisruption now legacy spreadsheet supplier).missingInventoryData.total = 0 →
       (calculateDisruption now legacy spreadsheet supplier).missingInventoryData.percentage = 0)) ∧
    (0 ≤ (calculateDisruption now legacy spreadsheet supplier).missingOrderData.percentage ∧
     (calculateDisruption now legacy spreadsheet supplier).missingOrderData.percentage ≤ 100 ∧
     (calculateDisruption now legacy spreadsheet supplier).missingOrderData.percentage =
       pctOf (calculateDisruption now legacy spreadsheet supplier).missingOrderData.count
         (calculateDisruption now legacy spreadsheet supplier).missingOrderData.total ∧
     ((calculateDisruption now legacy spreadsheet supplier).missingOrderData.total = 0 →
       (calculateDisruption now legacy spreadsheet supplier).missingOrderData.percentage = 0)) := by
  have hinv := pctOf_ok
    ((((legacy ++ spreadsheet).filter (fun r => truthy (getV r "item_id"))).filter
      (requiredMissing ["item_id", "inventory_qty", "last_updated"])).length)
    (((legacy ++ spreadsheet).filter (fun r => truthy (getV r "item_id"))).length)
    (List.length_filter_le _ _)
  have hord := pctOf_ok
    ((((legacy ++ spreadsheet).filter (fun r => truthy (getV r "order_id"))).filter
      (requiredMissing ["order_id", "order_qty", "last_updated"])).length)
    (((legacy ++ spreadsheet).filter (fun r => truthy (getV r "order_id"))).length)
    (List.length_filter_le _ _)
  exact ⟨⟨hinv.1, hinv.2.1, rfl, hinv.2.2⟩, ⟨hord.1, hord.2.1, rfl, hord.2.2⟩⟩

/-! ## C9: no upper cutoff on the in-transit window -/

/-- C9: any supplier row whose `shipment_date` parses strictly after
`now` minus 14 days is classified in transit — there is no upper bound,
so dates arbitrarily far in the future qualify. -/
theorem inTransit_no_upper_cutoff (now : Int) (legacy spreadsheet supplier : List Row)
    (r : Row) (sd : String) (t : Int)
    (hmem : r ∈ supplier)
    (hsd : getV r "shipment_date" = Value.str sd)
    (hne : sd ≠ "")
    (hparse : parseJsDateMs (mmddyyyyFix sd) = some t)
    (ht : now - 14 * 86400000 < t) :
    r ∈ (calculateDisruption now legacy spreadsheet supplier).inTransitOrders := by
  have hb : (sd == "") = false := beq_eq_false_iff_ne.mpr hne
  have hpred : inTransitPred now r = true := by
    unfold inTransitPred
    rw [hsd]
    simp only [truthy, hb, Bool.not_false, Bool.not_true, Bool.not_not, Bool.false_eq_true,
      if_false]
    rw [hparse]
    simpa using ht
  show r ∈ supplier.filter (inTransitPred now)
  exact List.mem_filter.mpr ⟨hmem, hpred⟩

set_option maxRecDepth 4000 in
/-- C9 witness: with `now = 0`, a shipment dated 2100-01-05 (far in the
future) is included in the in-transit list. -/
theorem inTransit_no_upper_cutoff_witness :
    [("shipment_date", Value.str "2100-01-05")] ∈
      (calculateDisruption 0 [] [] [[("shipment_date", Value.str "2100-01-05")]]).inTransitOrders :=
  inTransit_no_upper_cutoff 0 [] [] [[("shipment_date", Value.str "2100-01-05")]]
    [("shipment_date", Value.str "2100-01-05")] "2100-01-05"
    (daysFromCivil 2100 1 5 * 86400000)
    (by decide) (by decide) (by decide) (by decide) (by decide)

/-! ## C4: frame of the correction merger -/

theorem updateSourceList_eq_map (rows : List Row) (opt : Option (List Row))
    (idField : String) (mappings : List (String × String)) :
    updateSourceList rows opt idField mappings = rows.map (updateRowOpt opt idField mappings) := by
  cases opt with
  | none => exact (List.map_id' rows).symm
  | some c => rfl

theorem updateRowWith_none (c : List Row) (idField : String)
    (mappings : List (String × String)) (r : Row)
    (h : mapGetLast c idField (getV r idField) = none) :
    updateRowWith c idField mappings r = r := by
  unfold updateRowWith
  rw [h]

theorem updateRowOpt_none (idField : String) (mappings : List (String × String)) (r : Row) :
    updateRowOpt none idField mappings r = r := rfl

theorem updateRowOpt_some (c : List Row) (idField : String)
    (mappings : List (String × String)) (r : Row) :
    updateRowOpt (some c) idField mappings r = updateRowWith c idField mappings r := rfl

theorem mergeRowFull_id (a : AiFixedData) (r : Row)
    (hinv : ∀ c, a.consolidatedInventory = some c →
      mapGetLast c "item_id" (getV r "item_id") = none)
    (hord : ∀ c, a.consolidatedOrders = some c →
      mapGetLast c "order_id" (getV r "order_id") = none) :
    mergeRowFull a r = r := by
  unfold mergeRowFull
  cases hi : a.consolidatedInventory with
  | none =>
    rw [updateRowOpt_none]
    cases ho : a.consolidatedOrders with
    | none => rw [updateRowOpt_none]
    | some co =>
      rw [updateRowOpt_some]
      exact updateRowWith_none co "order_id" orderMapping r (hord co ho)
  | some ci =>
    rw [updateRowOpt_some, updateRowWith_none ci "item_id" invMapping r (hinv ci hi)]
    cases ho : a.consolidatedOrders with
    | none => rw [updateRowOpt_none]
    | some co =>
      rw [updateRowOpt_some]
      exact updateRowWith_none co "order_id" orderMapping r (hord co ho)

/-- C4 (amended): the merger never touches supplier or reverse-logistics
rows and leaves unmatched rows alone, up to the JSON deep copy it starts
with: when supplier and reverse-logistics values survive that copy the
lists are equal to the originals field by field, legacy and spreadsheet
are exactly the per-row merge image of the copy, and a copy-stable row
whose keys match no corrected row is returned unchanged.  The function
builds its result from a fresh copy, so in this pure embedding the
caller's bundle is untouched by construction. -/
theorem mergeAiFixes_frame (o : SourceData) (a : AiFixedData)
    (hs : jsonCopyRows o.supplier = o.supplier)
    (hr : jsonCopyRows o.reverseLogistics = o.reverseLogistics) :
    (mergeAiFixesIntoSources o a).supplier = o.supplier ∧
    (mergeAiFixesIntoSources o a).reverseLogistics = o.reverseLogistics ∧
    (mergeAiFixesIntoSources o a).legacy =
      o.legacy.map (fun r => mergeRowFull a (jsonCopyRow r)) ∧
    (mergeAiFixesIntoSources o a).spreadsheet =
      o.spreadsheet.map (fun r => mergeRowFull a (jsonCopyRow r)) ∧
    ∀ r : Row, jsonCopyRow r = r →
      (∀ c, a.consolidatedInventory = some c →
        mapGetLast c "item_id" (getV r "item_id") = none) →
      (∀ c, a.consolidatedOrders = some c →
        mapGetLast c "order_id" (getV r "order_id") = none) →
      mergeRowFull a (jsonCopyRow r) = r := by
  refine ⟨hs, hr, ?_, ?_, ?_⟩
  · show updateSourceList
      (updateSourceList (jsonCopyRows o.legacy) a.consolidatedInventory "item_id" invMapping)
      a.consolidatedOrders "order_id" orderMapping =
      o.legacy.map (fun r => mergeRowFull a (jsonCopyRow r))
    rw [updateSourceList_eq_map, updateSourceList_eq_map, jsonCopyRows,
      List.map_map, List.map_map]
    rfl
  · show updateSourceList
      (updateSourceList (jsonCopyRows o.spreadsheet) a.consolidatedInventory "item_id" invMapping)
      a.consolidatedOrders "order_id" orderMapping =
      o.spreadsheet.map (fun r => mergeRowFull a (jsonCopyRow r))
    rw [updateSourceList_eq_map, updateSourceList_eq_map, jsonCopyRows,
      List.map_map, List.map_map]
    rfl
  · intro r hcopy hinv hord
    rw [hcopy]
    exact mergeRowFull_id a r hinv hord

/-- C4 witness: a concrete JSON-stable bundle with no corrected lists is
returned with supplier intact, and a concrete unmatched row is unchanged. -/
theorem mergeAiFixes_frame_witness :
    (mergeAiFixesIntoSources
      (SourceData.mk [[("item_id", Value.str "A")]] [] [[("s", Value.str "ok")]] [] none)
      (AiFixedData.mk none none)).supplier = [[("s", Value.str "ok")]] ∧
    mergeRowFull (AiFixedData.mk none none) (jsonCopyRow [("x", Value.null)]) =
      [("x", Value.null)] :=
  ⟨(mergeAiFixes_frame
      (SourceData.mk [[("item_id", Value.str "A")]] [] [[("s", Value.str "ok")]] [] none)
      (AiFixedData.mk none none) (by decide) (by decide)).1,
   (mergeAiFixes_frame
      (SourceData.mk [[("item_id", Value.str "A")]] [] [[("s", Value.str "ok")]] [] none)
      (AiFixedData.mk none none) (by decide) (by decide)).2.2.2.2
     [("x", Value.null)] (by decide)
     (fun c hc => Option.noConfusion hc) (fun c hc => Option.noConfusion hc)⟩

/-! ## C7: split/join/trim round-trip lemmas -/

theorem joinCharL_cons_cons (c : Char) (l l2 : List Char) (ls : List (List Char)) :
    joinCharL c (l :: l2 :: ls) = l ++ c :: joinCharL c (l2 :: ls) := rfl

theorem splitCharL_no_sep (c : Char) (l : List Char) (h : c ∉ l) :
    splitCharL c l = [l] := by
  induction l with
  | nil => rfl
  | cons a t ih =>
    have ha : ¬a = c := fun he => h (he ▸ List.mem_cons_self a t)
    rw [splitCharL, if_neg ha, ih (fun hm => h (List.mem_cons_of_mem a hm))]

theorem splitCharL_append (c : Char) (l t : List Char) (h : c ∉ l) :
    splitCharL c (l ++ c :: t) = l :: splitCharL c t := by
  induction l with
  | nil => simp [splitCharL]
  | cons a l' ih =>
    have ha : ¬a = c := fun he => h (he ▸ List.mem_cons_self a l')
    rw [List.cons_append, splitCharL, if_neg ha,
      ih (fun hm => h (List.mem_cons_of_mem a hm))]

theorem splitCharL_joinCharL (c : Char) (ls : List (List Char)) (hne : ls ≠ [])
    (h : ∀ l ∈ ls, c ∉ l) : splitCharL c (joinCharL c ls) = ls := by
  induction ls with
  | nil => exact absurd rfl hne
  | cons l ls' ih =>
    cases ls' with
    | nil => exact splitCharL_no_sep c l (h l (List.mem_cons_self l []))
    | cons l2 ls'' =>
      rw [joinCharL_cons_cons, splitCharL_append c l _ (h l (List.mem_cons_self l _)),
        ih (List.cons_ne_nil l2 ls'') (fun x hx => h x (List.mem_cons_of_mem l hx))]

theorem splitLinesL_no_break (l : List Char) (h1 : '\n' ∉ l) (h2 : '\r' ∉ l) :
    splitLinesL l = [l] := by
  induction l with
  | nil => rfl
  | cons a t ih =>
    have ha1 : a ≠ '\n' := fun he => h1 (he ▸ List.mem_cons_self a t)
    have ha2 : a ≠ '\r' := fun he => h2 (he ▸ List.mem_cons_self a t)
    have iht := ih (fun hm => h1 (List.mem_cons_of_mem a hm))
      (fun hm => h2 (List.mem_cons_of_mem a hm))
    cases t with
    | nil => simp [splitLinesL, ha1, ha2]
    | cons b u =>
      rw [show splitLinesL (a :: b :: u) =
          (match splitLinesL (b :: u) with
            | [] => [[a]]
            | l :: ls => (a :: l) :: ls) by
        cases hb : b <;> simp [splitLinesL, ha1, ha2] <;> rfl]
      rw [iht]

theorem splitLinesL_append (l t : List Char) (h1 : '\n' ∉ l) (h2 : '\r' ∉ l) :
    splitLinesL (l ++ '\n' :: t) = l :: splitLinesL t := by
  induction l with
  | nil => simp [splitLinesL]
  | cons a l' ih =>
    have ha1 : a ≠ '\n' := fun he => h1 (he ▸ List.mem_cons_self a l')
    have ha2 : a ≠ '\r' := fun he => h2 (he ▸ List.mem_cons_self a l')
    have ihl := ih (fun hm => h1 (List.mem_cons_of_mem a hm))
      (fun hm => h2 (List.mem_cons_of_mem a hm))
    cases hl : l' ++ '\n' :: t with
    | nil => exact absurd hl (by simp)
    | cons b u =>
      rw [List.cons_append, hl]
      rw [show splitLinesL (a :: b :: u) =
          (match splitLinesL (b :: u) with
            | [] => [[a]]
            | l :: ls => (a :: l) :: ls) by
        cases hb : b <;> simp [splitLinesL, ha1, ha2] <;> rfl]
      rw [← hl, ihl]

theorem splitLinesL_joinCharL (ls : List (List Char)) (hne : ls ≠ [])
    (h : ∀ l ∈ ls, '\n' ∉ l ∧ '\r' ∉ l) :
    splitLinesL (joinCharL '\n' ls) = ls := by
  induction ls with
  | nil => exact absurd rfl hne
  | cons l ls' ih =>
    cases ls' with
    | nil =>
      exact splitLinesL_no_break l (h l (List.mem_cons_self l [])).1
        (h l (List.mem_cons_self l [])).2
    | cons l2 ls'' =>
      rw [joinCharL_cons_cons,
        splitLinesL_append l _ (h l (List.mem_cons_self l _)).1
          (h l (List.mem_cons_self l _)).2,
        ih (List.cons_ne_nil l2 ls'') (fun x hx => h x (List.mem_cons_of_mem l hx))]

theorem joinCharL_cons_ne_nil (c : Char) (l : List Char) (ls : List (List Char))
    (h : l ≠ []) : joinCharL c (l :: ls) ≠ [] := by
  cases ls with
  | nil => exact h
  | cons l2 ls' =>
    rw [joinCharL_cons_cons]
    cases l with
    | nil => exact absurd rfl h
    | cons a t => simp

theorem joinCharL_head? (c : Char) (l : List Char) (ls : List (List Char))
    (h : l ≠ []) : (joinCharL c (l :: ls)).head? = l.head? := by
  cases ls with
  | nil => rfl
  | cons l2 ls' =>
    rw [joinCharL_cons_cons, List.head?_append]
    cases l with
    | nil => exact absurd rfl h
    | cons a t => rfl

theorem getLast?_cons_of_ne_nil (a : Char) (t : List Char) (h : t ≠ []) :
    (a :: t).getLast? = t.getLast? := by
  cases t with
  | nil => exact absurd rfl h
  | cons b u => exact List.getLast?_cons_cons

theorem joinCharL_getLast?_mem (c : Char) (ls : List (List Char))
    (h : ∀ l ∈ ls, l ≠ []) :
    ∀ ch, (joinCharL c ls).getLast? = some ch → ∃ l ∈ ls, l.getLast? = some ch := by
  induction ls with
  | nil => intro ch hch; simp [joinCharL] at hch
  | cons l ls' ih =>
    intro ch hch
    cases ls' with
    | nil => exact ⟨l, List.mem_cons_self l [], hch⟩
    | cons l2 ls'' =>
      rw [joinCharL_cons_cons, List.getLast?_append_of_ne_nil l (List.cons_ne_nil c _)] at hch
      have hjoin_ne : joinCharL c (l2 :: ls'') ≠ [] :=
        joinCharL_cons_ne_nil c l2 ls'' (h l2 (List.mem_cons_of_mem l (List.mem_cons_self l2 ls'')))
      rw [getLast?_cons_of_ne_nil c _ hjoin_ne] at hch
      obtain ⟨lx, hlx, hlast⟩ := ih (fun x hx => h x (List.mem_cons_of_mem l hx)) ch hch
      exact ⟨lx, List.mem_cons_of_mem l hlx, hlast⟩

theorem mem_joinCharL (c : Char) (ls : List (List Char)) (x : Char)
    (h : x ∈ joinCharL c ls) : x = c ∨ ∃ l ∈ ls, x ∈ l := by
  induction ls with
  | nil => simp [joinCharL] at h
  | cons l ls' ih =>
    cases ls' with
    | nil => exact Or.inr ⟨l, List.mem_cons_self l [], h⟩
    | cons l2 ls'' =>
      rw [joinCharL_cons_cons] at h
      rcases List.mem_append.mp h with hx | hx
      · exact Or.inr ⟨l, List.mem_cons_self l _, hx⟩
      · rcases List.mem_cons.mp hx with hx | hx
        · exact Or.inl hx
        · rcases ih hx with hc | ⟨lx, hlx, hmem⟩
          · exact Or.inl hc
          · exact Or.inr ⟨lx, List.mem_cons_of_mem l hlx, hmem⟩

/-! ## C7: row rendering and rebuilding lemmas -/

theorem mk_data (s : String) : String.mk s.data = s := rfl

theorem setField_append (r : Row) (k : String) (v : Value) (h : k ∉ rowKeys r) :
    setField r k v = r ++ [(k, v)] := by
  induction r with
  | nil => rfl
  | cons p rest ih =>
    have hp : ¬p.1 = k := by
      intro he
      exact h (by rw [← he]; exact List.mem_cons_self p.1 _)
    rw [setField, if_neg hp, List.cons_append,
      ih (fun hm => h (List.mem_cons_of_mem p.1 hm))]

theorem zip_map_self (ks : List String) (f : String → Value) :
    ks.zip (ks.map f) = ks.map (fun k => (k, f k)) := by
  induction ks with
  | nil => rfl
  | cons k ks' ih => simp [ih]

theorem mem_of_mem_rowKeys (r : Row) (k : String) (h : k ∈ rowKeys r) :
    (k, getV r k) ∈ r := by
  induction r with
  | nil => simp [rowKeys] at h
  | cons p rest ih =>
    obtain ⟨k1, v1⟩ := p
    by_cases hp : k1 = k
    · subst hp
      simp [getV]
    · simp only [getV, hp, if_false]
      refine List.mem_cons_of_mem _ (ih ?_)
      simp only [rowKeys, List.map_cons, List.mem_cons] at h
      rcases h with h | h
      · exact absurd h.symm hp
      · exact h

theorem row_self (r : Row) : ∀ ks : List String, rowKeys r = ks → ks.Nodup →
    ks.map (fun k => (k, getV r k)) = r := by
  induction r with
  | nil =>
    intro ks hk _
    rw [← hk]
    rfl
  | cons p rest ih =>
    intro ks hk hnd
    obtain ⟨k1, v1⟩ := p
    subst hk
    rw [show rowKeys ((k1, v1) :: rest) = k1 :: rowKeys rest from rfl] at hnd ⊢
    have hk1 := (List.nodup_cons.mp hnd).1
    simp only [List.map_cons]
    have hhead : (k1, getV ((k1, v1) :: rest) k1) = (k1, v1) := by simp [getV]
    rw [hhead]
    have htail : (rowKeys rest).map (fun k => (k, getV ((k1, v1) :: rest) k)) =
        (rowKeys rest).map (fun k => (k, getV rest k)) := by
      apply List.map_congr_left
      intro k hkmem
      have hne : ¬k1 = k := fun he => hk1 (he ▸ hkmem)
      simp [getV, hne]
    rw [htail, ih (rowKeys rest) rfl (List.nodup_cons.mp hnd).2]

theorem renderCellL_str (s : String) (h : ',' ∉ s.data) :
    renderCellL (Value.str s) = s.data := by
  have heq : renderCellL (Value.str s) =
      (if (jsStringOf (Value.str s)).data.contains ',' then
        '"' :: (escQuotes (jsStringOf (Value.str s)).data ++ ['"'])
      else (jsStringOf (Value.str s)).data) := rfl
  rw [heq]
  have hc : ((jsStringOf (Value.str s)).data.contains ',') = false := by
    show (s.data.contains ',') = false
    simp [List.contains, List.elem_eq_mem, h]
  rw [hc]
  rfl

theorem stripCell_good (s : String) (h : goodCellP s.data) :
    stripCell s.data = Value.str s := by
  obtain ⟨⟨hne, htrim, _, _, _⟩, hquote⟩ := h
  unfold stripCell
  simp only [htrim]
  rw [if_neg hne, if_neg hquote]

theorem enumFrom_build (ks : List String) :
    ∀ (cs rest pre : List (List Char)) (acc : Row),
      ks.Nodup → (∀ k ∈ ks, k ∉ rowKeys acc) → ks.length = cs.length →
      (ks.enumFrom pre.length).foldl
        (fun obj p => setField obj p.2 (cellAt (pre ++ (cs ++ rest)) p.1)) acc =
      acc ++ ks.zip (cs.map stripCell) := by
  induction ks with
  | nil =>
    intro cs rest pre acc _ _ hlen
    cases cs with
    | nil => simp
    | cons c cs' => simp at hlen
  | cons k ks' ih =>
    intro cs rest pre acc hnd hfresh hlen
    cases cs with
    | nil => simp at hlen
    | cons c cs' =>
      simp only [List.enumFrom_cons, List.foldl_cons]
      have hget : (pre ++ ((c :: cs') ++ rest)).get? pre.length = some c := by
        rw [List.get?_eq_getElem?, List.getElem?_append_right (Nat.le_refl pre.length)]
        simp
      have hcell : cellAt (pre ++ ((c :: cs') ++ rest)) pre.length = stripCell c := by
        unfold cellAt
        rw [hget]
      rw [hcell, setField_append acc k _ (hfresh k (List.mem_cons_self k ks'))]
      have hnd' := (List.nodup_cons.mp hnd).2
      have hknotin := (List.nodup_cons.mp hnd).1
      have hfresh' : ∀ k' ∈ ks', k' ∉ rowKeys (acc ++ [(k, stripCell c)]) := by
        intro k' hk'
        rw [rowKeys, List.map_append]
        simp only [List.mem_append, List.map_cons, List.map_nil, List.mem_singleton]
        rintro (hin | hin)
        · exact hfresh k' (List.mem_cons_of_mem k hk') hin
        · exact hknotin (hin ▸ hk')
      have hlen' : ks'.length = cs'.length := by simpa using hlen
      have hassoc : pre ++ ((c :: cs') ++ rest) = (pre ++ [c]) ++ (cs' ++ rest) := by simp
      have hlen2 : pre.length + 1 = (pre ++ [c]).length := by simp
      rw [hassoc, hlen2, ih cs' rest (pre ++ [c]) (acc ++ [(k, stripCell c)]) hnd' hfresh' hlen']
      simp


theorem joinCharL_ne_nil (c : Char) (ls : List (List Char)) (h1 : ls ≠ [])
    (h2 : ls.headI ≠ []) : joinCharL c ls ≠ [] := by
  cases ls with
  | nil => exact absurd rfl h1
  | cons l ls' => exact joinCharL_cons_ne_nil c l ls' h2

/-- C7 (amended): the parse of the rendered text is exactly the original
row list, provided the first row's field list is non-empty and
duplicate-free, every row shares it, every field name is a good header
string and every value is a good cell string. -/
theorem csv_roundtrip (d : List Row) (r0 : Row) (rest : List Row)
    (hd : d = r0 :: rest)
    (hne : rowKeys r0 ≠ [])
    (hnodup : (rowKeys r0).Nodup)
    (hheaders : ∀ h ∈ rowKeys r0, goodHeaderP h.data)
    (hrows : ∀ r ∈ d, rowKeys r = rowKeys r0)
    (hvals : ∀ r ∈ d, ∀ p ∈ r, ∃ s : String, p.2 = Value.str s ∧ goodCellP s.data) :
    parseCSV (generateCsvContent d) = d := by
  subst hd
  obtain ⟨h1, htl, hks⟩ : ∃ h1 htl, rowKeys r0 = h1 :: htl := by
    cases hks : rowKeys r0 with
    | nil => exact absurd hks hne
    | cons a t => exact ⟨a, t, rfl⟩
  -- per-cell facts
  have hcell_spec : ∀ r ∈ r0 :: rest, ∀ h ∈ rowKeys r0, ∃ s : String,
      getV r h = Value.str s ∧ goodCellP s.data ∧ renderCellL (getV r h) = s.data := by
    intro r hr h hh
    have hk : h ∈ rowKeys r := by rw [hrows r hr]; exact hh
    obtain ⟨s, hs, hgood⟩ := hvals r hr (h, getV r h) (mem_of_mem_rowKeys r h hk)
    have hs' : getV r h = Value.str s := hs
    refine ⟨s, hs', hgood, ?_⟩
    rw [hs']
    exact renderCellL_str s hgood.1.2.2.1
  have hcells_mem : ∀ r ∈ r0 :: rest,
      ∀ x ∈ (rowKeys r0).map (fun h => renderCellL (getV r h)),
      x ≠ [] ∧ ',' ∉ x ∧ '\n' ∉ x ∧ '\r' ∉ x ∧
        (∀ c, x.getLast? = some c → isWS c = false) := by
    intro r hr x hx
    obtain ⟨h, hh, rfl⟩ := List.mem_map.mp hx
    obtain ⟨s, hgv, hgood, hrender⟩ := hcell_spec r hr h hh
    rw [hrender]
    refine ⟨hgood.1.1, hgood.1.2.2.1, hgood.1.2.2.2.1, hgood.1.2.2.2.2, ?_⟩
    intro c hc
    exact trimL_getLast?_false s.data c (by rw [hgood.1.2.1]; exact hc)
  have hheaders_mem : ∀ x ∈ (rowKeys r0).map String.data,
      x ≠ [] ∧ ',' ∉ x ∧ '\n' ∉ x ∧ '\r' ∉ x ∧
        (∀ c, x.getLast? = some c → isWS c = false) ∧ trimL x = x := by
    intro x hx
    obtain ⟨h, hh, rfl⟩ := List.mem_map.mp hx
    obtain ⟨hne1, htrim1, hc1, hn1, hr1⟩ := hheaders h hh
    exact ⟨hne1, hc1, hn1, hr1,
      fun c hc => trimL_getLast?_false h.data c (by rw [htrim1]; exact hc), htrim1⟩
  -- the rendered text
  have hgen : generateCsvContentL (r0 :: rest) =
      joinCharL '\n' (joinCharL ',' ((rowKeys r0).map String.data) ::
        (r0 :: rest).map (fun r =>
          joinCharL ',' ((rowKeys r0).map (fun h => renderCellL (getV r h))))) := rfl
  -- every line is non-empty
  have hL0ne : joinCharL ',' ((rowKeys r0).map String.data) ≠ [] := by
    apply joinCharL_ne_nil
    · simp [hks]
    · rw [hks, List.map_cons]
      exact (hheaders_mem h1.data (by rw [hks, List.map_cons]; exact List.mem_cons_self _ _)).1
  have hrowline_ne : ∀ r ∈ r0 :: rest,
      joinCharL ',' ((rowKeys r0).map (fun h => renderCellL (getV r h))) ≠ [] := by
    intro r hr
    apply joinCharL_ne_nil
    · simp [hks]
    · rw [hks, List.map_cons]
      exact (hcells_mem r hr (renderCellL (getV r h1))
        (by rw [hks, List.map_cons]; exact List.mem_cons_self _ _)).1
  have hline_ne : ∀ l ∈ (joinCharL ',' ((rowKeys r0).map String.data) ::
      (r0 :: rest).map (fun r =>
        joinCharL ',' ((rowKeys r0).map (fun h => renderCellL (getV r h))))), l ≠ [] := by
    intro l hl
    rcases List.mem_cons.mp hl with hl | hl
    · rw [hl]; exact hL0ne
    · obtain ⟨r, hr, rfl⟩ := List.mem_map.mp hl
      exact hrowline_ne r hr
  -- no line breaks inside any line
  have hline_nobreak : ∀ l ∈ (joinCharL ',' ((rowKeys r0).map String.data) ::
      (r0 :: rest).map (fun r =>
        joinCharL ',' ((rowKeys r0).map (fun h => renderCellL (getV r h))))),
      '\n' ∉ l ∧ '\r' ∉ l := by
    intro l hl
    rcases List.mem_cons.mp hl with hl | hl
    · subst hl
      constructor
      · intro hmem
        rcases mem_joinCharL ',' _ '\n' hmem with he | ⟨x, hx, hmemx⟩
        · exact absurd he (by decide)
        · exact (hheaders_mem x hx).2.2.1 hmemx
      · intro hmem
        rcases mem_joinCharL ',' _ '\r' hmem with he | ⟨x, hx, hmemx⟩
        · exact absurd he (by decide)
        · exact (hheaders_mem x hx).2.2.2.1 hmemx
    · obtain ⟨r, hr, rfl⟩ := List.mem_map.mp hl
      constructor
      · intro hmem
        rcases mem_joinCharL ',' _ '\n' hmem with he | ⟨x, hx, hmemx⟩
        · exact absurd he (by decide)
        · exact (hcells_mem r hr x hx).2.2.1 hmemx
      · intro hmem
        rcases mem_joinCharL ',' _ '\r' hmem with he | ⟨x, hx, hmemx⟩
        · exact absurd he (by decide)
        · exact (hcells_mem r hr x hx).2.2.2.1 hmemx
  -- the whole text is trim-stable
  have htrim_gen : trimL (generateCsvContentL (r0 :: rest)) =
      generateCsvContentL (r0 :: rest) := by
    rw [hgen]
    apply trimL_eq_self
    · intro c hc
      rw [joinCharL_head? '\n' _ _ hL0ne] at hc
      have hh1ne : ((rowKeys r0).map String.data).headI ≠ [] := by
        rw [hks, List.map_cons]
        exact (hheaders_mem h1.data (by rw [hks, List.map_cons]; exact List.mem_cons_self _ _)).1
      rw [show joinCharL ',' ((rowKeys r0).map String.data) =
          joinCharL ',' (h1.data :: htl.map String.data) by rw [hks, List.map_cons]] at hc
      rw [joinCharL_head? ',' _ _ (by
        have := hh1ne
        rw [hks, List.map_cons] at this
        simpa using this)] at hc
      have hstable := (hheaders_mem h1.data
        (by rw [hks, List.map_cons]; exact List.mem_cons_self _ _)).2.2.2.2.2
      exact trimL_head?_false h1.data c (by rw [hstable]; exact hc)
    · intro c hc
      obtain ⟨l, hl, hlast⟩ := joinCharL_getLast?_mem '\n' _ hline_ne c hc
      rcases List.mem_cons.mp hl with hl | hl
      · subst hl
        obtain ⟨x, hx, hxlast⟩ := joinCharL_getLast?_mem ',' _
          (fun x hx => (hheaders_mem x hx).1) c hlast
        exact (hheaders_mem x hx).2.2.2.2.1 c hxlast
      · obtain ⟨r, hr, rfl⟩ := List.mem_map.mp hl
        obtain ⟨x, hx, hxlast⟩ := joinCharL_getLast?_mem ',' _
          (fun x hx => (hcells_mem r hr x hx).1) c hlast
        exact (hcells_mem r hr x hx).2.2.2.2 c hxlast
  -- split back into lines
  have hsplit : splitLinesL (trimL (generateCsvContentL (r0 :: rest))) =
      joinCharL ',' ((rowKeys r0).map String.data) ::
        (r0 :: rest).map (fun r =>
          joinCharL ',' ((rowKeys r0).map (fun h => renderCellL (getV r h)))) := by
    rw [htrim_gen, hgen]
    exact splitLinesL_joinCharL _ (List.cons_ne_nil _ _) hline_nobreak
  -- the header row re-parses to the original keys
  have hheader_rt : (splitCharL ','
      (joinCharL ',' ((rowKeys r0).map String.data))).map (fun h => String.mk (trimL h)) =
      rowKeys r0 := by
    rw [splitCharL_joinCharL ',' _ (by simp [hks]) (fun x hx => (hheaders_mem x hx).2.1)]
    rw [List.map_map]
    have : ∀ h ∈ rowKeys r0, (String.mk (trimL h.data)) = h := by
      intro h hh
      rw [(hheaders h hh).2.1, mk_data]
    calc (rowKeys r0).map (fun h => String.mk (trimL h.data)) =
        (rowKeys r0).map (fun h => h) := List.map_congr_left this
      _ = rowKeys r0 := List.map_id' _
  -- each data line re-parses to its row
  have hrow_rt : ∀ r ∈ r0 :: rest,
      ((rowKeys r0).enum).foldl (fun obj p => setField obj p.2
        (cellAt (splitCharL ','
          (joinCharL ',' ((rowKeys r0).map (fun h => renderCellL (getV r h))))) p.1)) [] = r := by
    intro r hr
    rw [splitCharL_joinCharL ',' _ (by simp [hks]) (fun x hx => (hcells_mem r hr x hx).2.1)]
    have hb := enumFrom_build (rowKeys r0)
      ((rowKeys r0).map (fun h => renderCellL (getV r h))) [] [] [] hnodup
      (by intro k _; simp [rowKeys]) (by simp)
    simp only [List.nil_append, List.append_nil, List.length_nil] at hb
    rw [show ((rowKeys r0).enum) = (rowKeys r0).enumFrom 0 from rfl, hb]
    have hmapstrip : ((rowKeys r0).map (fun h => renderCellL (getV r h))).map stripCell =
        (rowKeys r0).map (fun h => getV r h) := by
      rw [List.map_map]
      apply List.map_congr_left
      intro h hh
      obtain ⟨s, hgv, hgood, hrender⟩ := hcell_spec r hr h hh
      show stripCell (renderCellL (getV r h)) = getV r h
      rw [hrender, stripCell_good s hgood, ← hgv]
    rw [hmapstrip, zip_map_self, row_self r (rowKeys r0) (hrows r hr) hnodup]
  -- assemble
  show parseCSVL (generateCsvContentL (r0 :: rest)) = r0 :: rest
  unfold parseCSVL
  rw [hsplit]
  rw [if_neg (by simp)]
  simp only [List.headI, List.tail_cons]
  rw [hheader_rt, List.map_map]
  calc (r0 :: rest).map ((fun line => ((rowKeys r0).enum).foldl (fun obj p =>
        setField obj p.2 (cellAt (splitCharL ',' line) p.1)) []) ∘
        (fun r => joinCharL ',' ((rowKeys r0).map (fun h => renderCellL (getV r h))))) =
      (r0 :: rest).map (fun r => r) := List.map_congr_left (fun r hr => hrow_rt r hr)
    _ = r0 :: rest := List.map_id' _


/-- C7 witness: a concrete two-field row of good strings survives the
render/parse round trip exactly. -/
theorem csv_roundtrip_witness :
    parseCSV (generateCsvContent [[("item", Value.str "X1"), ("name", Value.str "WIDGET")]]) =
      [[("item", Value.str "X1"), ("name", Value.str "WIDGET")]] :=
  csv_roundtrip [[("item", Value.str "X1"), ("name", Value.str "WIDGET")]]
    [("item", Value.str "X1"), ("name", Value.str "WIDGET")] [] rfl
    (by decide) (by decide) (by decide) (by decide)
    (by
      intro r hr p hp
      simp only [List.mem_singleton] at hr
      subst hr
      simp only [List.mem_cons, List.mem_singleton] at hp
      rcases hp with rfl | hp | hp
      · exact ⟨"X1", rfl, by decide⟩
      · subst hp
        exact ⟨"WIDGET", rfl, by decide⟩
      · exact absurd hp (List.not_mem_nil p))

/-! ## Counterexamples for the corrected claims -/

/-- C5 counterexample: cleaning a row whose quantity field holds the
string "Infinity" leaves a non-finite number (Infinity) in the field,
which is neither null nor a finite number. -/
theorem cleanData_qty_infinity_cex :
    getV ((cleanData [[("a_qty", Value.str "Infinity")]] "Legacy Database").headI) "a_qty" =
      Value.num JSNum.posInf ∧
    (∀ q : ℚ, Value.num JSNum.posInf ≠ Value.num (JSNum.fin q)) ∧
    Value.num JSNum.posInf ≠ Value.null :=
  ⟨by with_unfolding_all decide,
   fun q h => JSNum.noConfusion (Value.num.inj h),
   by decide⟩

/-- C6 counterexample: cleaning is not idempotent — a quantity cleaned to
Infinity is turned into null by the second clean's JSON deep copy. -/
theorem cleanData_not_idempotent_cex :
    cleanData (cleanData [[("a_qty", Value.str "Infinity")]] "L") "L" ≠
      cleanData [[("a_qty", Value.str "Infinity")]] "L" := by
  with_unfolding_all decide

/-- C7 counterexample: a numeric field value (42, whose rendering contains
no delimiter) is not recovered by re-parsing — it comes back as the string
"42". -/
theorem csv_roundtrip_cex :
    (jsStringOf (Value.num (JSNum.fin 42))).data.contains ',' = false ∧
    parseCSV (generateCsvContent [[("a", Value.num (JSNum.fin 42))]]) =
      [[("a", Value.str "42")]] ∧
    parseCSV (generateCsvContent [[("a", Value.num (JSNum.fin 42))]]) ≠
      [[("a", Value.num (JSNum.fin 42))]] := by
  refine ⟨by with_unfolding_all decide, by with_unfolding_all decide, ?_⟩
  with_unfolding_all decide

/-- C10 counterexample: a qty-named field absent from the first row is not
coerced, but it is not always left unchanged either — the deep copy maps
an Infinity value in such a field to null. -/
theorem cleanData_copy_changes_value_cex :
    containsStr "qty" (jsToLower "b_qty") = true ∧
    "b_qty" ∉ rowKeys ([[("a", Value.str "x")], [("a", Value.str "x"),
      ("b_qty", Value.num JSNum.posInf)]] : List Row).headI ∧
    getV ((cleanData [[("a", Value.str "x")], [("a", Value.str "x"),
      ("b_qty", Value.num JSNum.posInf)]] "L").tail.headI) "b_qty" = Value.null ∧
    (Value.null : Value) ≠ Value.num JSNum.posInf := by
  refine ⟨by decide, by decide, ?_, by decide⟩
  with_unfolding_all decide

/-- C4 counterexample: the merger's supplier list is not always equal to
the original — the deep copy rewrites an Infinity-valued supplier field
to null even though no correction touches supplier rows. -/
theorem mergeAiFixes_copy_cex :
    (mergeAiFixesIntoSources
      (SourceData.mk [] [] [[("x", Value.num JSNum.posInf)]] [] none)
      (AiFixedData.mk none none)).supplier =
      [[("x", Value.null)]] ∧
    (mergeAiFixesIntoSources
      (SourceData.mk [] [] [[("x", Value.num JSNum.posInf)]] [] none)
      (AiFixedData.mk none none)).supplier ≠
      [[("x", Value.num JSNum.posInf)]] := by
  refine ⟨by with_unfolding_all decide, ?_⟩
  with_unfolding_all decide

end DRE
